import Mathlib

/-!
Verification of the `uutils-term-grid` layout planner and renderer.

The definitions below are a shallow embedding of `src/lib.rs`:

* `div_ceil`                     — `div_ceil` (lib.rs, bottom of file);
* `Direction`, `Filling`,
  `GridOptions`, `Dimensions`    — the data model;
* `Filling.width`                — `Filling::width`, with the external
                                   `ansi_width` function passed in as
                                   `measure`;
* `Dimensions.total_width`       — `Dimensions::total_width`;
* `compute_dimensions`           — `Grid::compute_dimensions` (the update
                                   loop over cells is `fillCols`);
* `theoretical_max_num_lines`    — `Grid::theoretical_max_num_lines`
                                   (the greedy loop is `tmaxAux`, the
                                   descending sort is `sortDesc`);
* `width_dimensions` / `scanDims`— `Grid::width_dimensions`: the downward
                                   scan over candidate line counts, with
                                   `continue` on oversized separators and
                                   `break` on the first non-fitting sum;
* `Grid.new`                     — `Grid::new`, including the
                                   `unwrap_or` single-column fallback;
* `render_num_next`, `tabGo`,
  `rowGo`, `Grid.render`         — `impl Display for Grid`, with the
                                   tab-emission `while` loop embedded as
                                   `tabGo` (structural fuel, called with
                                   fuel `to`, which bounds the number of
                                   iterations since the cursor strictly
                                   advances towards `to`).

Machine integers (`usize`) are modelled as `Nat`; the saturating
subtractions in the source are guarded exactly as in the source, so the
`Nat` truncated subtraction coincides with them on every reachable input.
-/

/-- Number of spaces in one tab (`SPACES_IN_TAB`). -/
def SPACES_IN_TAB : Nat := 8

/-- Default size for separator in spaces (`DEFAULT_SEPARATOR_SIZE`). -/
def DEFAULT_SEPARATOR_SIZE : Nat := 2

/-- Division with upward rounding, as written in the source crate. -/
def div_ceil (lhs rhs : Nat) : Nat :=
  let d := lhs / rhs
  let r := lhs % rhs
  if 0 < r ∧ 0 < rhs then d + 1 else d

/-- Direction cells should be written in. -/
inductive Direction where
  | LeftToRight
  | TopToBottom
deriving DecidableEq, Repr

/-- The text to put in between each pair of columns. -/
inductive Filling where
  | Spaces (n : Nat)
  | Text (t : String)
  | Tabs (n : Nat)
deriving DecidableEq, Repr

/-- `Filling::width`. The external `ansi_width` measure is a parameter. -/
def Filling.width (f : Filling) (measure : String → Nat) : Nat :=
  match f with
  | .Spaces w => w
  | .Text t => measure t
  | .Tabs _ => DEFAULT_SEPARATOR_SIZE

/-- The options for a grid view. -/
structure GridOptions where
  direction : Direction
  filling : Filling
  width : Nat

/-- A layout plan: number of lines and the width of each column. -/
structure Dimensions where
  num_lines : Nat
  widths : List Nat
deriving DecidableEq, Repr

/-- `Dimensions::total_width`. -/
def Dimensions.total_width (d : Dimensions) (separator_width : Nat) : Nat :=
  if d.widths.isEmpty then 0
  else d.widths.sum + separator_width * (d.widths.length - 1)

/-- Maximum of a list of widths, `iter().max().unwrap_or(0)`. -/
def listMax (l : List Nat) : Nat := l.foldr max 0

/-- The cell-index-to-column mapping used by `Grid::compute_dimensions`. -/
def column_index (dir : Direction) (num_lines num_columns index : Nat) : Nat :=
  match dir with
  | .LeftToRight => index % num_columns
  | .TopToBottom => index / num_lines

/-- The update loop of `Grid::compute_dimensions`: raise the column of each
cell to at least that cell's width. -/
def fillCols (f : Nat → Nat) : Nat → List Nat → List Nat → List Nat
  | _, [], cols => cols
  | idx, w :: rest, cols =>
      fillCols f (idx + 1) rest
        (if cols.getD (f idx) 0 < w then cols.set (f idx) w else cols)

/-- `Grid::compute_dimensions`. -/
def compute_dimensions (ws : List Nat) (dir : Direction)
    (num_lines num_columns : Nat) : Dimensions :=
  ⟨num_lines,
   fillCols (column_index dir num_lines num_columns) 0 ws
     (List.replicate num_columns 0)⟩

/-- Insertion into a descending-sorted list (`sort_unstable_by(|a, b| b.cmp(a))`). -/
def insertDesc (x : Nat) : List Nat → List Nat
  | [] => [x]
  | y :: l => if y < x then x :: y :: l else y :: insertDesc x l

/-- Descending sort of the width list. -/
def sortDesc : List Nat → List Nat
  | [] => []
  | x :: l => insertDesc x (sortDesc l)

/-- The greedy loop of `Grid::theoretical_max_num_lines` over the sorted
widths: `i` is the loop index, `acc` the accumulated column width so far. -/
def tmaxAux (numCells sep maxW : Nat) : List Nat → Nat → Nat → Nat
  | [], _, _ => 1
  | w :: rest, i, acc =>
      let adjusted := if i = 0 then w else w + sep
      if acc + adjusted ≤ maxW then
        tmaxAux numCells sep maxW rest (i + 1) (acc + adjusted)
      else div_ceil numCells i

/-- `Grid::theoretical_max_num_lines`. -/
def theoretical_max_num_lines (ws : List Nat) (sep maxW : Nat) : Nat :=
  tmaxAux ws.length sep maxW (sortDesc ws) 0 0

/-- The candidate scan of `Grid::width_dimensions`, iterating `num_lines`
from the theoretical maximum down to 1: `continue` when the separators
alone exceed the budget, store a fitting candidate, `break` otherwise. -/
def scanDims (ws : List Nat) (dir : Direction) (sep maxW : Nat) :
    Nat → Option Dimensions → Option Dimensions
  | 0, best => best
  | num_lines + 1, best =>
      let num_columns := div_ceil ws.length (num_lines + 1)
      let total_separator_width := (num_columns - 1) * sep
      if maxW < total_separator_width then
        scanDims ws dir sep maxW num_lines best
      else
        let adjusted_width := maxW - total_separator_width
        let potential := compute_dimensions ws dir (num_lines + 1) num_columns
        if potential.widths.sum ≤ adjusted_width then
          scanDims ws dir sep maxW num_lines (some potential)
        else best

/-- `Grid::width_dimensions`. -/
def width_dimensions (ws : List Nat) (dir : Direction) (sep maxW : Nat) :
    Option Dimensions :=
  if maxW < listMax ws then none
  else if ws.length = 0 then some ⟨0, []⟩
  else if ws.length = 1 then some ⟨1, [ws.getD 0 0]⟩
  else if theoretical_max_num_lines ws sep maxW = 1 then some ⟨1, ws⟩
  else scanDims ws dir sep maxW (theoretical_max_num_lines ws sep maxW) none

/-- Everything needed to format the cells with the grid options. -/
structure Grid where
  options : GridOptions
  cells : List String
  widths : List Nat
  widest_cell_width : Nat
  dimensions : Dimensions

/-- `Grid::new`: measure every cell, plan the layout, and fall back to a
single column of the widest cell's width when planning fails. -/
def Grid.new (measure : String → Nat) (cells : List String)
    (options : GridOptions) : Grid :=
  let widths := cells.map measure
  let widest_cell_width := listMax widths
  let dims :=
    (width_dimensions widths options.direction
        (options.filling.width measure) options.width).getD
      ⟨cells.length, [widest_cell_width]⟩
  ⟨options, cells, widths, widest_cell_width, dims⟩

/-- `Grid::width`. -/
def Grid.width (g : Grid) (measure : String → Nat) : Nat :=
  g.dimensions.total_width (g.options.filling.width measure)

/-- `Grid::row_count`. -/
def Grid.row_count (g : Grid) : Nat := g.dimensions.num_lines

/-- A string of `n` spaces. -/
def spacesStr (n : Nat) : String := ⟨List.replicate n ' '⟩

/-- A string of `n` tab characters. -/
def tabsStr (n : Nat) : String := ⟨List.replicate n '\t'⟩

/-- The `(tab_size, separator)` pair computed at the top of the `Display`
implementation. -/
def filling_tab_and_separator (f : Filling) : Nat × String :=
  match f with
  | .Spaces n => (0, spacesStr n)
  | .Text s => (0, s)
  | .Tabs n => (n, spacesStr DEFAULT_SEPARATOR_SIZE)

/-- The `(num, next)` pair computed by the renderer for row `y`,
column `x`. -/
def render_num_next (dir : Direction) (num_lines num_columns y x : Nat) :
    Nat × Nat :=
  match dir with
  | .LeftToRight => (y * num_columns + x, 1)
  | .TopToBottom => (y + num_lines * x, num_lines)

/-- The tab-emission `while` loop of the renderer: starting at `cursor`,
count tab characters while a tab still lands before the target `to`.
`fuel` is a structural bound on the number of iterations; every call in
this file passes `fuel = to`, which suffices because each iteration
strictly advances the cursor towards `to`. -/
def tabGo (tab_size tgt : Nat) : Nat → Nat → Nat → Nat × Nat
  | 0, cursor, tabs => (tabs, cursor)
  | fuel + 1, cursor, tabs =>
      if cursor + 1 < tgt ∧ ¬(cursor / tab_size = tgt / tab_size) then
        tabGo tab_size tgt fuel (cursor + (tab_size - cursor % tab_size)) (tabs + 1)
      else (tabs, cursor)

/-- Terminal semantics of emitting `k` tab characters from `cursor`: each
tab advances the cursor to the next multiple of `tab_size`. -/
def termAdvance (tab_size : Nat) : Nat → Nat → Nat
  | cursor, 0 => cursor
  | cursor, k + 1 => termAdvance tab_size (cursor + (tab_size - cursor % tab_size)) k

/-- One row of the renderer's nested loop (`for x in 0..widths.len()`),
appending to `acc`; `r` counts the remaining columns (`r + x = num_columns`
at every call), `cursor` is the running position used by tab filling. -/
def rowGo (g : Grid) (tab_size : Nat) (separator : String) (y : Nat) :
    Nat → Nat → Nat → String → String
  | 0, _, _, acc => acc
  | r + 1, x, cursor, acc =>
      let C := g.dimensions.widths.length
      let nn := render_num_next g.options.direction g.dimensions.num_lines C y x
      if g.cells.length ≤ nn.1 then acc
      else
        let contents := g.cells.getD nn.1 ""
        let width := g.widths.getD nn.1 0
        let col_width := g.dimensions.widths.getD x 0
        let padding_size := col_width - width
        let acc2 := acc ++ contents
        if x ≠ C - 1 ∧ nn.1 + nn.2 < g.cells.length then
          if tab_size = 0 then
            rowGo g tab_size separator y r (x + 1) cursor
              (acc2 ++ spacesStr padding_size ++ separator)
          else
            let cursor2 := cursor + width
            let tgt := cursor2 + padding_size + DEFAULT_SEPARATOR_SIZE
            let tc := tabGo tab_size tgt tgt cursor2 0
            rowGo g tab_size separator y r (x + 1) tgt
              (acc2 ++ tabsStr tc.1 ++
                (if tc.2 ≠ tgt then spacesStr (tgt - tc.2) else ""))
        else rowGo g tab_size separator y r (x + 1) cursor acc2

/-- Concatenate rendered rows, one line terminator after each row. -/
def concatRows : List String → String
  | [] => ""
  | r :: rest => r ++ "\n" ++ concatRows rest

/-- `impl Display for Grid`. -/
def Grid.render (g : Grid) : String :=
  if g.cells.length = 0 then ""
  else
    let ts := filling_tab_and_separator g.options.filling
    concatRows
      ((List.range g.dimensions.num_lines).map
        (fun y => rowGo g ts.1 ts.2 y g.dimensions.widths.length 0 0 ""))

/-- A tab stop (a positive multiple of `tab_size`) lies strictly after `a`
and at or before `b`. -/
def stopIn (tab_size a b : Nat) : Prop :=
  ∃ m, m ≤ b ∧ a < m * tab_size ∧ m * tab_size ≤ b

instance (tab_size a b : Nat) : Decidable (stopIn tab_size a b) := by
  unfold stopIn
  infer_instance

/-- The multiset-style view of `fillCols`: the widths of the cells that the
mapping `f` sends to column `c`, starting at cell index `idx`. -/
def classVals (f : Nat → Nat) (c : Nat) : Nat → List Nat → List Nat
  | _, [] => []
  | idx, w :: rest => (if f idx = c then [w] else []) ++ classVals f c (idx + 1) rest

/-- The separator cost of the candidate with `L` lines:
`(num_columns - 1) * separator_width`. -/
def sep_total (N sep L : Nat) : Nat := (div_ceil N L - 1) * sep

/-- A candidate line count passes both checks of the scan in
`Grid::width_dimensions`. -/
def fitsAt (ws : List Nat) (dir : Direction) (sep maxW L : Nat) : Prop :=
  sep_total ws.length sep L ≤ maxW ∧
  (compute_dimensions ws dir L (div_ceil ws.length L)).widths.sum ≤
    maxW - sep_total ws.length sep L

/-- A string containing no line terminator. -/
def noNL (s : String) : Prop := '\n' ∉ s.data

instance (s : String) : Decidable (noNL s) := by
  unfold noNL
  infer_instance

/-- The string the renderer emits for row `y`. -/
def renderRowStr (g : Grid) (y : Nat) : String :=
  rowGo g (filling_tab_and_separator g.options.filling).1
    (filling_tab_and_separator g.options.filling).2 y
    g.dimensions.widths.length 0 0 ""

/-- The renderer's cell index for row `y`, column `x`. -/
def cellNum (g : Grid) (y x : Nat) : Nat :=
  (render_num_next g.options.direction g.dimensions.num_lines
    g.dimensions.widths.length y x).1

/-- The renderer's index stride towards the next cell of the same row. -/
def cellNext (g : Grid) (y x : Nat) : Nat :=
  (render_num_next g.options.direction g.dimensions.num_lines
    g.dimensions.widths.length y x).2

/-- The padding the renderer inserts after the cell at row `y`,
column `x`. -/
def padSize (g : Grid) (y x : Nat) : Nat :=
  g.dimensions.widths.getD x 0 - g.widths.getD (cellNum g y x) 0

/-- The cursor target after the separator that follows row `y`,
column `x`, in tab-stop mode. -/
def tabTarget (g : Grid) (y x cursor : Nat) : Nat :=
  cursor + g.widths.getD (cellNum g y x) 0 + padSize g y x + DEFAULT_SEPARATOR_SIZE

/-- Behaviour of the tab-emission loop at one column boundary, starting at
cursor `c` with `pad` columns of padding to cover: the emitted tabs and
spaces advance the terminal cursor by exactly
`pad + DEFAULT_SEPARATOR_SIZE` columns; at least one tab is used exactly
when a tab stop lies in `(c, tgt]`; and every literal space is emitted
either with no tab stop remaining in range or on the very last column
before the target. -/
def tabAdvanceSpec (tab_size c pad : Nat) : Prop :=
  (c ≤ (tabGo tab_size (c + pad + DEFAULT_SEPARATOR_SIZE) (c + pad + DEFAULT_SEPARATOR_SIZE) c 0).2 ∧
   (tabGo tab_size (c + pad + DEFAULT_SEPARATOR_SIZE) (c + pad + DEFAULT_SEPARATOR_SIZE) c 0).2 ≤
     c + pad + DEFAULT_SEPARATOR_SIZE ∧
   termAdvance tab_size c
       (tabGo tab_size (c + pad + DEFAULT_SEPARATOR_SIZE) (c + pad + DEFAULT_SEPARATOR_SIZE) c 0).1 =
     (tabGo tab_size (c + pad + DEFAULT_SEPARATOR_SIZE) (c + pad + DEFAULT_SEPARATOR_SIZE) c 0).2 ∧
   ((tabGo tab_size (c + pad + DEFAULT_SEPARATOR_SIZE) (c + pad + DEFAULT_SEPARATOR_SIZE) c 0).2 - c) +
       (c + pad + DEFAULT_SEPARATOR_SIZE -
        (tabGo tab_size (c + pad + DEFAULT_SEPARATOR_SIZE) (c + pad + DEFAULT_SEPARATOR_SIZE) c 0).2) =
     pad + DEFAULT_SEPARATOR_SIZE) ∧
  (0 < (tabGo tab_size (c + pad + DEFAULT_SEPARATOR_SIZE) (c + pad + DEFAULT_SEPARATOR_SIZE) c 0).1 ↔
    stopIn tab_size c (c + pad + DEFAULT_SEPARATOR_SIZE)) ∧
  (∀ cp, (tabGo tab_size (c + pad + DEFAULT_SEPARATOR_SIZE) (c + pad + DEFAULT_SEPARATOR_SIZE) c 0).2 ≤ cp →
    cp < c + pad + DEFAULT_SEPARATOR_SIZE →
    ¬ stopIn tab_size cp (c + pad + DEFAULT_SEPARATOR_SIZE) ∨
      cp + 1 = c + pad + DEFAULT_SEPARATOR_SIZE)

/-- Every space the tab-emission loop falls back to is emitted only when no
tab stop lies strictly after the current cursor and at or before the
target — the per-character claim of the specification for spaces. -/
def tabSpacesClaim (tab_size c tgt : Nat) : Prop :=
  ∀ cp, cp < tgt → (tabGo tab_size tgt tgt c 0).2 ≤ cp → ¬ stopIn tab_size cp tgt

instance (tab_size c tgt : Nat) : Decidable (tabSpacesClaim tab_size c tgt) := by
  unfold tabSpacesClaim
  infer_instance

/-- Each nonempty row's emission ends with the contents of the row's last
real cell: no separator and no padding follow it. -/
def rowEndsWithLastCell (g : Grid) : Prop :=
  ∀ y x, y < g.dimensions.num_lines → x < g.dimensions.widths.length →
    (render_num_next g.options.direction g.dimensions.num_lines
        g.dimensions.widths.length y x).1 < g.cells.length →
    (x + 1 = g.dimensions.widths.length ∨
      g.cells.length ≤ (render_num_next g.options.direction g.dimensions.num_lines
          g.dimensions.widths.length y (x + 1)).1) →
    ∃ pre, renderRowStr g y =
      pre ++ g.cells.getD (render_num_next g.options.direction g.dimensions.num_lines
        g.dimensions.widths.length y x).1 ""


/-! ### Arithmetic facts about `div_ceil` -/

theorem div_ceil_eq (lhs rhs : Nat) :
    div_ceil lhs rhs =
      if 0 < lhs % rhs ∧ 0 < rhs then lhs / rhs + 1 else lhs / rhs := rfl

theorem div_ceil_mul_ge (N i : Nat) (hi : 1 ≤ i) : N ≤ div_ceil N i * i := by
  rw [div_ceil_eq]
  obtain ⟨q, hq⟩ : ∃ q, N / i = q := ⟨_, rfl⟩
  obtain ⟨r, hr⟩ : ∃ r, N % i = r := ⟨_, rfl⟩
  have h1 : i * q + r = N := by rw [← hq, ← hr]; exact Nat.div_add_mod N i
  have hm : r < i := by rw [← hr]; exact Nat.mod_lt _ hi
  rw [hq, hr]
  split
  · have h2 : (q + 1) * i = i * q + i := by ring
    omega
  · have h2 : q * i = i * q := Nat.mul_comm _ _
    omega

theorem div_ceil_le_of_le_mul (N L i : Nat) (hL : 1 ≤ L) (h : N ≤ L * i) :
    div_ceil N L ≤ i := by
  rw [div_ceil_eq]
  obtain ⟨q, hq⟩ : ∃ q, N / L = q := ⟨_, rfl⟩
  obtain ⟨r, hr⟩ : ∃ r, N % L = r := ⟨_, rfl⟩
  have h1 : L * q + r = N := by rw [← hq, ← hr]; exact Nat.div_add_mod N L
  rw [hq, hr]
  split
  · rename_i hcase
    by_contra hc
    have hle : i ≤ q := by omega
    have h2 : L * i ≤ L * q := Nat.mul_le_mul_left L hle
    omega
  · rename_i hcase
    by_contra hc
    have hle : i + 1 ≤ q := by omega
    have h2 : L * (i + 1) ≤ L * q := Nat.mul_le_mul_left L hle
    have h3 : L * (i + 1) = L * i + L := by ring
    omega

theorem div_ceil_anti (N L₁ L₂ : Nat) (h1 : 1 ≤ L₁) (h12 : L₁ ≤ L₂) :
    div_ceil N L₂ ≤ div_ceil N L₁ := by
  refine div_ceil_le_of_le_mul N L₂ _ (by omega) ?_
  calc N ≤ div_ceil N L₁ * L₁ := div_ceil_mul_ge N L₁ h1
    _ ≤ div_ceil N L₁ * L₂ := Nat.mul_le_mul_left _ h12
    _ = L₂ * div_ceil N L₁ := Nat.mul_comm _ _

theorem div_ceil_pos (N i : Nat) (hN : 1 ≤ N) (hi : 1 ≤ i) : 1 ≤ div_ceil N i := by
  by_contra hc
  have h0 : div_ceil N i = 0 := by omega
  have h2 := div_ceil_mul_ge N i hi
  rw [h0] at h2
  omega

theorem div_ceil_one (N : Nat) : div_ceil N 1 = N := by
  rw [div_ceil_eq]
  simp [Nat.mod_one]

theorem div_ceil_ge_two (N i : Nat) (hi : 1 ≤ i) (hiN : i < N) :
    2 ≤ div_ceil N i := by
  by_contra hc
  have h1 : div_ceil N i ≤ 1 := by omega
  have h2 : N ≤ div_ceil N i * i := div_ceil_mul_ge N i hi
  have h3 : div_ceil N i * i ≤ 1 * i := Nat.mul_le_mul_right i h1
  omega

theorem div_ceil_pred_mul_lt (N L : Nat) (hL : 1 ≤ L) (hN : 1 ≤ N) :
    (div_ceil N L - 1) * L < N := by
  rw [div_ceil_eq]
  obtain ⟨q, hq⟩ : ∃ q, N / L = q := ⟨_, rfl⟩
  obtain ⟨r, hr⟩ : ∃ r, N % L = r := ⟨_, rfl⟩
  have h1 : L * q + r = N := by rw [← hq, ← hr]; exact Nat.div_add_mod N L
  rw [hq, hr]
  split
  · rename_i hcase
    have h3 : q + 1 - 1 = q := by omega
    rw [h3]
    have h2 : q * L = L * q := Nat.mul_comm _ _
    omega
  · rename_i hcase
    have hrz : r = 0 := by omega
    have hqpos : 1 ≤ q := by
      by_contra hc
      have hq0 : q = 0 := by omega
      rw [hq0] at h1
      omega
    have h2 : (q - 1) * L + L = L * q := by
      have hqq : q - 1 + 1 = q := by omega
      calc (q - 1) * L + L = (q - 1 + 1) * L := by ring
        _ = q * L := by rw [hqq]
        _ = L * q := Nat.mul_comm _ _
    omega

/-! ### Facts about `listMax` -/

theorem le_listMax_of_mem {l : List Nat} {x : Nat} (h : x ∈ l) : x ≤ listMax l := by
  induction l with
  | nil => cases h
  | cons y l ih =>
    rcases List.mem_cons.mp h with h | h
    · subst h
      exact le_max_left _ _
    · exact le_trans (ih h) (le_max_right _ _)

theorem listMax_le {l : List Nat} {b : Nat} (h : ∀ x ∈ l, x ≤ b) : listMax l ≤ b := by
  induction l with
  | nil => exact Nat.zero_le b
  | cons y l ih =>
    refine max_le (h y (List.mem_cons_self _ _)) (ih fun x hx => h x (List.mem_cons_of_mem _ hx))

theorem listMax_mem {l : List Nat} (h : l ≠ []) : listMax l ∈ l := by
  induction l with
  | nil => exact absurd rfl h
  | cons y l ih =>
    cases l with
    | nil => simp [listMax]
    | cons z l' =>
      rcases le_total (listMax (z :: l')) y with hle | hle
      · have : listMax (y :: z :: l') = y := max_eq_left hle
        rw [this]
        exact List.mem_cons_self _ _
      · have : listMax (y :: z :: l') = listMax (z :: l') := max_eq_right hle
        rw [this]
        exact List.mem_cons_of_mem _ (ih (by simp))

/-! ### `getD` / `set` helpers -/

theorem getD_set_self {l : List Nat} {j a : Nat} (h : j < l.length) :
    (l.set j a).getD j 0 = a := by
  induction l generalizing j with
  | nil => simp at h
  | cons y l ih =>
    cases j with
    | zero => simp [List.set, List.getD]
    | succ j =>
      simp only [List.set, List.length_cons] at *
      simpa [List.getD] using ih (by omega)

theorem getD_set_ne {l : List Nat} {i j a : Nat} (h : i ≠ j) :
    (l.set j a).getD i 0 = l.getD i 0 := by
  induction l generalizing i j with
  | nil => simp [List.set]
  | cons y l ih =>
    cases j with
    | zero =>
      cases i with
      | zero => exact absurd rfl h
      | succ i => simp [List.set, List.getD]
    | succ j =>
      cases i with
      | zero => simp [List.set, List.getD]
      | succ i => simpa [List.set, List.getD] using ih (by omega)

theorem getD_replicate {n x i : Nat} (h : i < n) :
    (List.replicate n x).getD i 0 = x := by
  induction n generalizing i with
  | zero => omega
  | succ n ih =>
    cases i with
    | zero => simp [List.replicate, List.getD]
    | succ i => simpa [List.replicate, List.getD] using ih (by omega)

theorem getD_mem {l : List Nat} {i : Nat} (h : i < l.length) : l.getD i 0 ∈ l := by
  induction l generalizing i with
  | nil => simp at h
  | cons y l ih =>
    cases i with
    | zero => simp [List.getD]
    | succ i =>
      simp only [List.length_cons] at h
      exact List.mem_cons_of_mem _ (by simpa [List.getD] using ih (by omega))

theorem sum_eq_sum_getD (l : List Nat) :
    l.sum = ∑ i ∈ Finset.range l.length, l.getD i 0 := by
  induction l with
  | nil => simp
  | cons y l ih =>
    rw [List.sum_cons, List.length_cons, Finset.sum_range_succ']
    simp only [List.getD_cons_succ, List.getD_cons_zero]
    omega

/-! ### Facts about the descending sort -/

theorem insertDesc_perm (x : Nat) (l : List Nat) : List.Perm (insertDesc x l) (x :: l) := by
  induction l with
  | nil => exact List.Perm.refl _
  | cons y l ih =>
    rw [insertDesc]
    split
    · exact List.Perm.refl _
    · exact List.Perm.trans (List.Perm.cons y ih) (List.Perm.swap x y l)

theorem sortDesc_perm (l : List Nat) : List.Perm (sortDesc l) l := by
  induction l with
  | nil => exact List.Perm.refl _
  | cons x l ih =>
    exact List.Perm.trans (insertDesc_perm x (sortDesc l)) (List.Perm.cons x ih)

theorem mem_insertDesc {x z : Nat} {l : List Nat} (h : z ∈ insertDesc x l) :
    z = x ∨ z ∈ l := by
  induction l with
  | nil => simpa [insertDesc] using h
  | cons y l ih =>
    rw [insertDesc] at h
    split at h
    · rcases List.mem_cons.mp h with h | h
      · exact Or.inl h
      · exact Or.inr h
    · rcases List.mem_cons.mp h with h | h
      · exact Or.inr (h ▸ List.mem_cons_self _ _)
      · rcases ih h with h | h
        · exact Or.inl h
        · exact Or.inr (List.mem_cons_of_mem _ h)

theorem insertDesc_sorted {x : Nat} {l : List Nat} (h : l.Sorted (· ≥ ·)) :
    (insertDesc x l).Sorted (· ≥ ·) := by
  induction l with
  | nil => simp [insertDesc]
  | cons y l ih =>
    rw [List.sorted_cons] at h
    rw [insertDesc]
    split
    · rename_i hyx
      rw [List.sorted_cons]
      constructor
      · intro b hb
        rcases List.mem_cons.mp hb with hb | hb
        · omega
        · have := h.1 b hb
          omega
      · rw [List.sorted_cons]
        exact h
    · rename_i hyx
      rw [List.sorted_cons]
      constructor
      · intro b hb
        rcases mem_insertDesc hb with hb | hb
        · omega
        · exact h.1 b hb
      · exact ih h.2

theorem sortDesc_sorted (l : List Nat) : (sortDesc l).Sorted (· ≥ ·) := by
  induction l with
  | nil => simp [sortDesc]
  | cons x l ih => exact insertDesc_sorted ih

theorem sortDesc_length (l : List Nat) : (sortDesc l).length = l.length :=
  (sortDesc_perm l).length_eq

theorem sortDesc_sum (l : List Nat) : (sortDesc l).sum = l.sum :=
  (sortDesc_perm l).sum_eq

theorem mem_sortDesc {l : List Nat} {x : Nat} :
    x ∈ sortDesc l ↔ x ∈ l :=
  (sortDesc_perm l).mem_iff

/-! ### Characterisation of `fillCols` (the compute_dimensions update loop) -/

theorem fillCols_length (f : Nat → Nat) (ws : List Nat) :
    ∀ (idx : Nat) (cols : List Nat), (fillCols f idx ws cols).length = cols.length := by
  induction ws with
  | nil => intro idx cols; rfl
  | cons w rest ih =>
    intro idx cols
    rw [fillCols, ih]
    split
    · exact List.length_set cols _ _
    · rfl

theorem fillCols_getD (f : Nat → Nat) (ws : List Nat) :
    ∀ (idx : Nat) (cols : List Nat) (c : Nat), c < cols.length →
      (fillCols f idx ws cols).getD c 0 =
        max (cols.getD c 0) (listMax (classVals f c idx ws)) := by
  induction ws with
  | nil =>
    intro idx cols c _
    simp [fillCols, classVals, listMax]
  | cons w rest ih =>
    intro idx cols c hc
    rw [fillCols, classVals]
    by_cases hfc : f idx = c
    · rw [if_pos hfc]
      by_cases hlt : cols.getD (f idx) 0 < w
      · rw [if_pos hlt]
        rw [ih (idx + 1) _ c (by rw [List.length_set]; exact hc)]
        rw [hfc] at hlt ⊢
        rw [getD_set_self hc]
        simp only [List.singleton_append, listMax, List.foldr_cons]
        have : listMax (classVals f c (idx + 1) rest) =
            List.foldr max 0 (classVals f c (idx + 1) rest) := rfl
        rw [← this]
        omega
      · rw [if_neg hlt]
        rw [ih (idx + 1) _ c hc]
        rw [hfc] at hlt
        simp only [List.singleton_append, listMax, List.foldr_cons]
        have : listMax (classVals f c (idx + 1) rest) =
            List.foldr max 0 (classVals f c (idx + 1) rest) := rfl
        rw [← this]
        omega
    · rw [if_neg hfc]
      simp only [List.nil_append]
      by_cases hlt : cols.getD (f idx) 0 < w
      · rw [if_pos hlt]
        rw [ih (idx + 1) _ c (by rw [List.length_set]; exact hc)]
        rw [getD_set_ne (fun h => hfc h.symm)]
      · rw [if_neg hlt]
        exact ih (idx + 1) _ c hc

theorem compute_dimensions_num_lines (ws : List Nat) (dir : Direction)
    (L C : Nat) : (compute_dimensions ws dir L C).num_lines = L := rfl

theorem compute_dimensions_length (ws : List Nat) (dir : Direction)
    (L C : Nat) : (compute_dimensions ws dir L C).widths.length = C := by
  rw [compute_dimensions]
  simp [fillCols_length]

theorem compute_dimensions_getD (ws : List Nat) (dir : Direction)
    (L C c : Nat) (hc : c < C) :
    (compute_dimensions ws dir L C).widths.getD c 0 =
      listMax (classVals (column_index dir L C) c 0 ws) := by
  rw [compute_dimensions]
  have h := fillCols_getD (column_index dir L C) ws 0 (List.replicate C 0) c
    (by simpa using hc)
  simp only [h, getD_replicate hc]
  omega

theorem mem_of_mem_classVals {f : Nat → Nat} {c : Nat} {ws : List Nat} :
    ∀ {idx x : Nat}, x ∈ classVals f c idx ws → x ∈ ws := by
  induction ws with
  | nil => intro idx x h; simp [classVals] at h
  | cons w rest ih =>
    intro idx x h
    rw [classVals] at h
    rcases List.mem_append.mp h with h | h
    · split at h
      · simp at h
        exact h ▸ List.mem_cons_self _ _
      · simp at h
    · exact List.mem_cons_of_mem _ (ih h)

theorem getD_mem_classVals {f : Nat → Nat} {c : Nat} (ws : List Nat) :
    ∀ (idx j : Nat), j < ws.length → f (idx + j) = c →
      ws.getD j 0 ∈ classVals f c idx ws := by
  induction ws with
  | nil => intro idx j h; simp at h
  | cons w rest ih =>
    intro idx j hj hfc
    rw [classVals]
    cases j with
    | zero =>
      rw [Nat.add_zero] at hfc
      rw [if_pos hfc]
      simp [List.getD]
    | succ j =>
      refine List.mem_append.mpr (Or.inr ?_)
      have harg : idx + 1 + j = idx + (j + 1) := by omega
      have := ih (idx + 1) j (by simpa using Nat.lt_of_succ_lt_succ hj)
        (by rw [harg]; exact hfc)
      simpa [List.getD] using this

theorem classVals_partition (f : Nat → Nat) (C : Nat) (ws : List Nat) :
    ∀ (idx : Nat), (∀ j, j < ws.length → f (idx + j) < C) →
      (∑ c ∈ Finset.range C, (↑(classVals f c idx ws) : Multiset Nat)) = (↑ws : Multiset Nat) := by
  induction ws with
  | nil =>
    intro idx _
    simp [classVals]
  | cons w rest ih =>
    intro idx hrange
    have hstep : ∀ c, (↑(classVals f c idx (w :: rest)) : Multiset Nat) =
        (if f idx = c then ({w} : Multiset Nat) else 0) +
          (↑(classVals f c (idx + 1) rest) : Multiset Nat) := by
      intro c
      rw [classVals]
      split
      · simp
      · simp
    rw [Finset.sum_congr rfl (fun c _ => hstep c), Finset.sum_add_distrib]
    have h1 : (∑ c ∈ Finset.range C, if f idx = c then ({w} : Multiset Nat) else 0) =
        ({w} : Multiset Nat) := by
      rw [Finset.sum_ite_eq]
      rw [if_pos]
      refine Finset.mem_range.mpr ?_
      have := hrange 0 (by simp)
      simpa using this
    have h2 : (∑ c ∈ Finset.range C, (↑(classVals f c (idx + 1) rest) : Multiset Nat)) =
        (↑rest : Multiset Nat) := by
      refine ih (idx + 1) ?_
      intro j hj
      have harg : idx + 1 + j = idx + (j + 1) := by omega
      rw [harg]
      exact hrange (j + 1) (by simpa using Nat.succ_lt_succ hj)
    rw [h1, h2]
    simp [Multiset.cons_coe]

/-! ### Summing a family of multisets -/

theorem multiset_sum_range (n : Nat) (F : Nat → Multiset Nat) :
    (∑ c ∈ Finset.range n, F c).sum = ∑ c ∈ Finset.range n, (F c).sum := by
  induction n with
  | zero => simp
  | succ n ih => rw [Finset.sum_range_succ, Finset.sum_range_succ, Multiset.sum_add, ih]

theorem multiset_card_range (n : Nat) (F : Nat → Multiset Nat) :
    Multiset.card (∑ c ∈ Finset.range n, F c) = ∑ c ∈ Finset.range n, Multiset.card (F c) := by
  induction n with
  | zero => simp
  | succ n ih => rw [Finset.sum_range_succ, Finset.sum_range_succ, Multiset.card_add, ih]

/-! ### A sub-multiset is dominated by the same number of largest elements -/

theorem sum_take_mono (l : List Nat) {k k' : Nat} (h : k ≤ k') :
    (l.take k).sum ≤ (l.take k').sum := by
  have hk : k' = k + (k' - k) := by omega
  rw [hk, List.take_add, List.sum_append]
  omega

theorem sum_take_cons_le {x : Nat} {l : List Nat}
    (hs : (x :: l).Sorted (· ≥ ·)) (k : Nat) :
    (l.take k).sum ≤ ((x :: l).take k).sum := by
  cases k with
  | zero => simp
  | succ k =>
    rw [List.take_succ_cons]
    rw [List.sum_cons]
    have hbound : (l.take (k + 1)).sum ≤ (l.take k).sum + x := by
      rw [List.take_succ, List.sum_append]
      have : (l[k]?.toList).sum ≤ x := by
        cases hgk : l[k]? with
        | none => simp
        | some v =>
          have hv : v ∈ l := List.getElem?_mem hgk
          have := (List.sorted_cons.mp hs).1 v hv
          simpa using this
      omega
    omega

theorem multiset_sum_le_sorted_take (l : List Nat) (hs : l.Sorted (· ≥ ·)) :
    ∀ T : Multiset Nat, T ≤ (↑l : Multiset Nat) →
      T.sum ≤ (l.take (Multiset.card T)).sum := by
  induction l with
  | nil =>
    intro T hT
    have : T = 0 := Multiset.le_zero.mp (by simpa using hT)
    simp [this]
  | cons x l ih =>
    intro T hT
    by_cases hx : x ∈ T
    · have hTeq : x ::ₘ T.erase x = T := Multiset.cons_erase hx
      have hle : T.erase x ≤ (↑l : Multiset Nat) := by
        have h1 : x ::ₘ T.erase x ≤ x ::ₘ (↑l : Multiset Nat) := by
          rw [hTeq]
          simpa [Multiset.cons_coe] using hT
        exact (Multiset.cons_le_cons_iff x).mp h1
      rw [← hTeq, Multiset.card_cons, Multiset.sum_cons, List.take_succ_cons,
        List.sum_cons]
      exact Nat.add_le_add_left (ih (List.sorted_cons.mp hs).2 _ hle) x
    · have hle : T ≤ (↑l : Multiset Nat) := by
        rw [Multiset.le_iff_count]
        intro a
        have h1 := Multiset.le_iff_count.mp hT a
        by_cases hax : a = x
        · subst hax
          simp [Multiset.count_eq_zero_of_not_mem hx]
        · rw [← Multiset.cons_coe, Multiset.count_cons_of_ne hax] at h1
          exact h1
      calc T.sum ≤ (l.take (Multiset.card T)).sum := ih (List.sorted_cons.mp hs).2 _ hle
        _ ≤ ((x :: l).take (Multiset.card T)).sum := sum_take_cons_le hs _

/-! ### The column widths are dominated by the largest cell widths -/

theorem column_index_lt (dir : Direction) (L C : Nat) (N : Nat)
    (hL : 1 ≤ L) (hC1 : 1 ≤ C) (hNC : N ≤ C * L) :
    ∀ j, j < N → column_index dir L C j < C := by
  intro j hj
  cases dir with
  | LeftToRight =>
    simpa [column_index] using Nat.mod_lt j hC1
  | TopToBottom =>
    simp only [column_index]
    exact (Nat.div_lt_iff_lt_mul hL).mpr (by omega)

theorem compute_dimensions_sum_le (ws : List Nat) (dir : Direction) (L C : Nat)
    (hL : 1 ≤ L) (hN : 1 ≤ ws.length) (hC : C = div_ceil ws.length L) :
    (compute_dimensions ws dir L C).widths.sum ≤ ((sortDesc ws).take C).sum := by
  have hC1 : 1 ≤ C := hC ▸ div_ceil_pos ws.length L hN hL
  have hNC : ws.length ≤ C * L := by
    rw [hC]
    exact div_ceil_mul_ge ws.length L hL
  have hrange : ∀ j, j < ws.length → column_index dir L C j < C :=
    column_index_lt dir L C ws.length hL hC1 hNC
  have hpart := classVals_partition (column_index dir L C) C ws 0
    (by intro j hj; simpa using hrange j hj)
  have hsum : (compute_dimensions ws dir L C).widths.sum =
      ∑ c ∈ Finset.range C, listMax (classVals (column_index dir L C) c 0 ws) := by
    rw [sum_eq_sum_getD, compute_dimensions_length]
    exact Finset.sum_congr rfl fun c hc =>
      compute_dimensions_getD ws dir L C c (Finset.mem_range.mp hc)
  have hpick : ∀ c, (if classVals (column_index dir L C) c 0 ws = [] then (0 : Multiset Nat)
      else ({listMax (classVals (column_index dir L C) c 0 ws)} : Multiset Nat)) ≤
        (↑(classVals (column_index dir L C) c 0 ws) : Multiset Nat) := by
    intro c
    split
    · exact Multiset.zero_le _
    · rename_i hne
      exact Multiset.singleton_le.mpr (Multiset.mem_coe.mpr (listMax_mem hne))
  set T : Multiset Nat := ∑ c ∈ Finset.range C,
    (if classVals (column_index dir L C) c 0 ws = [] then (0 : Multiset Nat)
      else ({listMax (classVals (column_index dir L C) c 0 ws)} : Multiset Nat)) with hT
  have hTle : T ≤ (↑ws : Multiset Nat) := by
    rw [hT, ← hpart]
    exact Finset.sum_le_sum fun c _ => hpick c
  have hTsum : T.sum = ∑ c ∈ Finset.range C,
      listMax (classVals (column_index dir L C) c 0 ws) := by
    rw [hT, multiset_sum_range]
    refine Finset.sum_congr rfl fun c _ => ?_
    split
    · rename_i he
      simp [he, listMax]
    · simp
  have hTcard : Multiset.card T ≤ C := by
    rw [hT, multiset_card_range]
    calc (∑ c ∈ Finset.range C, Multiset.card
        (if classVals (column_index dir L C) c 0 ws = [] then (0 : Multiset Nat)
          else ({listMax (classVals (column_index dir L C) c 0 ws)} : Multiset Nat))) ≤
        ∑ _c ∈ Finset.range C, 1 := by
          refine Finset.sum_le_sum fun c _ => ?_
          split
          · simp
          · simp
      _ = C := by simp
  have hTles : T ≤ (↑(sortDesc ws) : Multiset Nat) := by
    have : (↑(sortDesc ws) : Multiset Nat) = (↑ws : Multiset Nat) :=
      Multiset.coe_eq_coe.mpr (sortDesc_perm ws)
    rw [this]
    exact hTle
  calc (compute_dimensions ws dir L C).widths.sum
      = T.sum := by rw [hsum, hTsum]
    _ ≤ ((sortDesc ws).take (Multiset.card T)).sum :=
        multiset_sum_le_sorted_take (sortDesc ws) (sortDesc_sorted ws) T hTles
    _ ≤ ((sortDesc ws).take C).sum := sum_take_mono (sortDesc ws) hTcard

/-! ### The greedy upper-bound computation -/

theorem sub_one_mul_add (i sep : Nat) (hi : 1 ≤ i) :
    (i - 1) * sep + sep = i * sep := by
  obtain ⟨k, rfl⟩ : ∃ k, i = k + 1 := ⟨i - 1, by omega⟩
  simp [Nat.succ_sub_one]
  ring

theorem tmaxAux_spec (N sep maxW : Nat) (ss : List Nat) :
    ∀ (rest : List Nat) (i : Nat), 1 ≤ i → i ≤ ss.length → rest = ss.drop i →
      (ss.take i).sum + (i - 1) * sep ≤ maxW →
      (tmaxAux N sep maxW rest i ((ss.take i).sum + (i - 1) * sep) = 1 ∧
        ss.sum + (ss.length - 1) * sep ≤ maxW) ∨
      (∃ i', i ≤ i' ∧ i' < ss.length ∧
        tmaxAux N sep maxW rest i ((ss.take i).sum + (i - 1) * sep) = div_ceil N i' ∧
        (ss.take i').sum + (i' - 1) * sep ≤ maxW) := by
  intro rest
  induction rest with
  | nil =>
    intro i hi hle hdrop hacc
    left
    have hlen : ss.length ≤ i := by
      have := congrArg List.length hdrop
      simp [List.length_drop] at this
      omega
    have hieq : i = ss.length := by omega
    have htake : ss.take i = ss := List.take_of_length_le (by omega)
    rw [tmaxAux]
    constructor
    · rfl
    · rw [htake] at hacc
      rw [hieq] at hacc
      exact hacc
  | cons w rest' ih =>
    intro i hi hle hdrop hacc
    have hilt : i < ss.length := by
      have := congrArg List.length hdrop
      simp [List.length_drop] at this
      omega
    have hgetw : ss[i]? = some w := by
      have h0 : (ss.drop i)[0]? = some w := by
        rw [← hdrop]
        simp
      rw [List.getElem?_drop] at h0
      simpa using h0
    have htake1 : ss.take (i + 1) = ss.take i ++ [w] := by
      rw [List.take_succ, hgetw]
      rfl
    have hdrop1 : rest' = ss.drop (i + 1) := by
      have h2 : (ss.drop i).drop 1 = rest' := by
        rw [← hdrop]
        rfl
      rw [← h2, List.drop_drop, Nat.add_comm]
    rw [tmaxAux]
    have hine : ¬ (i = 0) := by omega
    simp only [hine, if_false]
    by_cases hfit : (ss.take i).sum + (i - 1) * sep + (w + sep) ≤ maxW
    · rw [if_pos hfit]
      have hacc' : (ss.take i).sum + (i - 1) * sep + (w + sep) =
          (ss.take (i + 1)).sum + (i + 1 - 1) * sep := by
        rw [htake1, List.sum_append, Nat.add_sub_cancel]
        have := sub_one_mul_add i sep hi
        simp only [List.sum_cons, List.sum_nil]
        omega
      rw [hacc']
      have hres := ih (i + 1) (by omega) (by omega) hdrop1 (by rw [← hacc']; exact hfit)
      rcases hres with ⟨h1, h2⟩ | ⟨i', hii', hilen, heq, hbound⟩
      · exact Or.inl ⟨h1, h2⟩
      · exact Or.inr ⟨i', by omega, hilen, heq, hbound⟩
    · rw [if_neg hfit]
      exact Or.inr ⟨i, le_refl i, hilt, rfl, hacc⟩

theorem tmaxAux_cons_zero (N sep maxW s0 : Nat) (rest : List Nat) (h : s0 ≤ maxW) :
    tmaxAux N sep maxW (s0 :: rest) 0 0 = tmaxAux N sep maxW rest 1 s0 := by
  rw [tmaxAux]
  simp [h]

theorem theoretical_max_spec (ws : List Nat) (sep maxW : Nat)
    (hN : 1 ≤ ws.length) (hwid : listMax ws ≤ maxW) :
    (theoretical_max_num_lines ws sep maxW = 1 ∧
      ws.sum + (ws.length - 1) * sep ≤ maxW) ∨
    (∃ i, 1 ≤ i ∧ i < ws.length ∧
      theoretical_max_num_lines ws sep maxW = div_ceil ws.length i ∧
      ((sortDesc ws).take i).sum + (i - 1) * sep ≤ maxW) := by
  have hlen : (sortDesc ws).length = ws.length := sortDesc_length ws
  rw [theoretical_max_num_lines]
  cases hss : sortDesc ws with
  | nil =>
    rw [hss] at hlen
    simp at hlen
    omega
  | cons s0 rest =>
    have hs0mem : s0 ∈ ws := by
      have : s0 ∈ sortDesc ws := by rw [hss]; exact List.mem_cons_self _ _
      exact mem_sortDesc.mp this
    have hs0 : s0 ≤ maxW := le_trans (le_listMax_of_mem hs0mem) hwid
    rw [tmaxAux_cons_zero ws.length sep maxW s0 rest hs0]
    have heq : ((s0 :: rest).take 1).sum + (1 - 1) * sep = s0 := by simp
    have hres := tmaxAux_spec ws.length sep maxW (s0 :: rest) rest 1 (le_refl 1)
      (by simp) (by simp) (by rw [heq]; exact hs0)
    rw [heq] at hres
    rcases hres with ⟨h1, h2⟩ | ⟨i', h1, h2, h3, h4⟩
    · left
      refine ⟨h1, ?_⟩
      have hsum : (s0 :: rest).sum = ws.sum := by rw [← hss]; exact sortDesc_sum ws
      have hlen2 : (s0 :: rest).length = ws.length := by rw [← hss]; exact hlen
      rw [hsum, hlen2] at h2
      exact h2
    · right
      refine ⟨i', h1, ?_, h3, ?_⟩
      · rw [← hss] at h2
        omega
      · exact h4

theorem tmaxAux_le (N sep maxW : Nat) (hN : 1 ≤ N) :
    ∀ (rest : List Nat) (i acc : Nat), 1 ≤ i →
      tmaxAux N sep maxW rest i acc ≤ div_ceil N i := by
  intro rest
  induction rest with
  | nil =>
    intro i acc hi
    rw [tmaxAux]
    exact div_ceil_pos N i hN hi
  | cons w rest' ih =>
    intro i acc hi
    rw [tmaxAux]
    by_cases h : acc + (if i = 0 then w else w + sep) ≤ maxW
    · rw [if_pos h]
      exact le_trans (ih (i + 1) (acc + (if i = 0 then w else w + sep)) (by omega))
        (div_ceil_anti N i (i + 1) hi (by omega))
    · rw [if_neg h]

theorem tmaxAux_mono (N sep W W' : Nat) (hWW : W ≤ W') (hN : 1 ≤ N) :
    ∀ (rest : List Nat) (i acc : Nat), 1 ≤ i →
      tmaxAux N sep W' rest i acc ≤ tmaxAux N sep W rest i acc := by
  intro rest
  induction rest with
  | nil => intro i acc hi; rw [tmaxAux, tmaxAux]
  | cons w rest' ih =>
    intro i acc hi
    rw [tmaxAux, tmaxAux]
    by_cases h1 : acc + (if i = 0 then w else w + sep) ≤ W
    · rw [if_pos h1, if_pos (by omega)]
      exact ih (i + 1) _ (by omega)
    · rw [if_neg h1]
      by_cases h2 : acc + (if i = 0 then w else w + sep) ≤ W'
      · rw [if_pos h2]
        exact le_trans (tmaxAux_le N sep W' hN rest' (i + 1) _ (by omega))
          (div_ceil_anti N i (i + 1) hi (by omega))
      · rw [if_neg h2]

theorem theoretical_max_mono (ws : List Nat) (sep W W' : Nat)
    (hWW : W ≤ W') (hN : 1 ≤ ws.length) (hwid : listMax ws ≤ W) :
    theoretical_max_num_lines ws sep W' ≤ theoretical_max_num_lines ws sep W := by
  have hlen : (sortDesc ws).length = ws.length := sortDesc_length ws
  rw [theoretical_max_num_lines, theoretical_max_num_lines]
  cases hss : sortDesc ws with
  | nil => rw [tmaxAux, tmaxAux]
  | cons s0 rest =>
    have hs0mem : s0 ∈ ws := by
      have : s0 ∈ sortDesc ws := by rw [hss]; exact List.mem_cons_self _ _
      exact mem_sortDesc.mp this
    have hs0 : s0 ≤ W := le_trans (le_listMax_of_mem hs0mem) hwid
    rw [tmaxAux_cons_zero ws.length sep W s0 rest hs0,
      tmaxAux_cons_zero ws.length sep W' s0 rest (le_trans hs0 hWW)]
    exact tmaxAux_mono ws.length sep W W' hWW hN rest 1 s0 (le_refl 1)

/-! ### The candidate scan -/

theorem scanDims_succ (ws : List Nat) (dir : Direction) (sep maxW L : Nat)
    (best : Option Dimensions) :
    scanDims ws dir sep maxW (L + 1) best =
      if maxW < sep_total ws.length sep (L + 1) then
        scanDims ws dir sep maxW L best
      else if (compute_dimensions ws dir (L + 1) (div_ceil ws.length (L + 1))).widths.sum ≤
          maxW - sep_total ws.length sep (L + 1) then
        scanDims ws dir sep maxW L
          (some (compute_dimensions ws dir (L + 1) (div_ceil ws.length (L + 1))))
      else best := rfl

theorem sep_total_anti (N sep L₁ L₂ : Nat) (h1 : 1 ≤ L₁) (h12 : L₁ ≤ L₂) :
    sep_total N sep L₂ ≤ sep_total N sep L₁ := by
  have := div_ceil_anti N L₁ L₂ h1 h12
  exact Nat.mul_le_mul_right sep (by omega)

theorem fitsAt_mono {ws : List Nat} {dir : Direction} {sep W W' L : Nat}
    (h : fitsAt ws dir sep W L) (hWW : W ≤ W') : fitsAt ws dir sep W' L := by
  unfold fitsAt at h ⊢
  omega

theorem scanDims_some (ws : List Nat) (dir : Direction) (sep maxW : Nat) :
    ∀ (L : Nat) (d0 : Dimensions), ∃ d,
      scanDims ws dir sep maxW L (some d0) = some d ∧
        (d = d0 ∨ d.num_lines ≤ L) := by
  intro L
  induction L with
  | zero => exact fun d0 => ⟨d0, rfl, Or.inl rfl⟩
  | succ L ih =>
    intro d0
    rw [scanDims_succ]
    by_cases h1 : maxW < sep_total ws.length sep (L + 1)
    · rw [if_pos h1]
      obtain ⟨d, hd, hor⟩ := ih d0
      exact ⟨d, hd, by rcases hor with h | h; exact Or.inl h; exact Or.inr (by omega)⟩
    · rw [if_neg h1]
      by_cases h2 : (compute_dimensions ws dir (L + 1)
          (div_ceil ws.length (L + 1))).widths.sum ≤ maxW - sep_total ws.length sep (L + 1)
      · rw [if_pos h2]
        obtain ⟨d, hd, hor⟩ := ih (compute_dimensions ws dir (L + 1) (div_ceil ws.length (L + 1)))
        refine ⟨d, hd, Or.inr ?_⟩
        rcases hor with h | h
        · rw [h, compute_dimensions_num_lines]
        · omega
      · rw [if_neg h2]
        exact ⟨d0, rfl, Or.inl rfl⟩

theorem scanDims_visit (ws : List Nat) (dir : Direction) (sep maxW : Nat) :
    ∀ (L : Nat) (best : Option Dimensions) (d : Dimensions),
      scanDims ws dir sep maxW L best = some d →
      best = some d ∨
      (1 ≤ d.num_lines ∧ d.num_lines ≤ L ∧
        d = compute_dimensions ws dir d.num_lines (div_ceil ws.length d.num_lines) ∧
        fitsAt ws dir sep maxW d.num_lines ∧
        ∀ L', d.num_lines < L' → L' ≤ L →
          fitsAt ws dir sep maxW L' ∨ maxW < sep_total ws.length sep L') := by
  intro L
  induction L with
  | zero => exact fun best d h => Or.inl h
  | succ L ih =>
    intro best d h
    rw [scanDims_succ] at h
    by_cases h1 : maxW < sep_total ws.length sep (L + 1)
    · rw [if_pos h1] at h
      rcases ih best d h with h' | ⟨ha, hb, hc, hd, he⟩
      · exact Or.inl h'
      · refine Or.inr ⟨ha, by omega, hc, hd, ?_⟩
        intro L' hlo hhi
        by_cases hL' : L' = L + 1
        · subst hL'
          exact Or.inr h1
        · exact he L' hlo (by omega)
    · rw [if_neg h1] at h
      by_cases h2 : (compute_dimensions ws dir (L + 1)
          (div_ceil ws.length (L + 1))).widths.sum ≤ maxW - sep_total ws.length sep (L + 1)
      · rw [if_pos h2] at h
        have hfit : fitsAt ws dir sep maxW (L + 1) := ⟨by omega, h2⟩
        rcases ih _ d h with h' | ⟨ha, hb, hc, hd, he⟩
        · have hd : d = compute_dimensions ws dir (L + 1) (div_ceil ws.length (L + 1)) :=
            (Option.some_injective _ h').symm
          have hnl : d.num_lines = L + 1 := by rw [hd, compute_dimensions_num_lines]
          refine Or.inr ⟨by omega, by omega, ?_, ?_, ?_⟩
          · rw [hnl, hd]
          · rw [hnl]
            exact hfit
          · intro L' hlo hhi
            omega
        · refine Or.inr ⟨ha, by omega, hc, hd, ?_⟩
          intro L' hlo hhi
          by_cases hL' : L' = L + 1
          · subst hL'
            exact Or.inl hfit
          · exact he L' hlo (by omega)
      · rw [if_neg h2] at h
        exact Or.inl h

theorem scanDims_ub (ws : List Nat) (dir : Direction) (sep maxW : Nat) :
    ∀ (L : Nat) (best : Option Dimensions) (Lx : Nat), 1 ≤ Lx → Lx ≤ L →
      (∀ L', Lx ≤ L' → L' ≤ L → fitsAt ws dir sep maxW L') →
      ∃ d, scanDims ws dir sep maxW L best = some d ∧ d.num_lines ≤ Lx := by
  intro L
  induction L with
  | zero => intro best Lx h1 h2 _; omega
  | succ L ih =>
    intro best Lx h1 h2 hall
    have hfit : fitsAt ws dir sep maxW (L + 1) := hall (L + 1) (by omega) (le_refl _)
    have hsep : sep_total ws.length sep (L + 1) ≤ maxW := hfit.1
    rw [scanDims_succ, if_neg (by omega : ¬ maxW < sep_total ws.length sep (L + 1)),
      if_pos hfit.2]
    by_cases hLx : Lx = L + 1
    · obtain ⟨d, hd, hor⟩ := scanDims_some ws dir sep maxW L
        (compute_dimensions ws dir (L + 1) (div_ceil ws.length (L + 1)))
      refine ⟨d, hd, ?_⟩
      rcases hor with h | h
      · rw [h, compute_dimensions_num_lines]
        omega
      · omega
    · exact ih _ Lx h1 (by omega) (fun L' hlo hhi => hall L' hlo (by omega))

/-! ### Putting the planner together -/

theorem total_width_eq (d : Dimensions) (sep : Nat) (h : d.widths.length ≠ 0) :
    d.total_width sep = d.widths.sum + sep * (d.widths.length - 1) := by
  have hne : d.widths ≠ [] := by
    intro hh
    rw [hh] at h
    simp at h
  unfold Dimensions.total_width
  rw [if_neg (by simpa using hne)]

theorem first_candidate_fits (ws : List Nat) (dir : Direction) (sep maxW : Nat)
    (hN : 1 ≤ ws.length) (i : Nat) (h1 : 1 ≤ i) (h2 : i < ws.length)
    (hbound : ((sortDesc ws).take i).sum + (i - 1) * sep ≤ maxW) :
    fitsAt ws dir sep maxW (div_ceil ws.length i) := by
  have hL1 : 1 ≤ div_ceil ws.length i := div_ceil_pos ws.length i hN h1
  have hCi : div_ceil ws.length (div_ceil ws.length i) ≤ i :=
    div_ceil_le_of_le_mul ws.length (div_ceil ws.length i) i hL1
      (by have := div_ceil_mul_ge ws.length i h1; omega)
  have htake := sum_take_mono (sortDesc ws) hCi
  have hsepm : (div_ceil ws.length (div_ceil ws.length i) - 1) * sep ≤ (i - 1) * sep :=
    Nat.mul_le_mul_right sep (by omega)
  have hsum := compute_dimensions_sum_le ws dir (div_ceil ws.length i)
    (div_ceil ws.length (div_ceil ws.length i)) hL1 hN rfl
  constructor
  · unfold sep_total
    omega
  · unfold sep_total
    omega

theorem width_dimensions_isSome (ws : List Nat) (dir : Direction) (sep maxW : Nat)
    (hwid : listMax ws ≤ maxW) :
    ∃ d, width_dimensions ws dir sep maxW = some d := by
  rw [width_dimensions]
  rw [if_neg (by omega : ¬ maxW < listMax ws)]
  by_cases h0 : ws.length = 0
  · rw [if_pos h0]
    exact ⟨_, rfl⟩
  · rw [if_neg h0]
    by_cases hone : ws.length = 1
    · rw [if_pos hone]
      exact ⟨_, rfl⟩
    · rw [if_neg hone]
      by_cases htm : theoretical_max_num_lines ws sep maxW = 1
      · rw [if_pos htm]
        exact ⟨_, rfl⟩
      · rw [if_neg htm]
        rcases theoretical_max_spec ws sep maxW (by omega) hwid with ⟨h1, _⟩ | ⟨i, hi1, hi2, heq, hb⟩
        · exact absurd h1 htm
        · have hfit : fitsAt ws dir sep maxW (theoretical_max_num_lines ws sep maxW) := by
            rw [heq]
            exact first_candidate_fits ws dir sep maxW (by omega) i hi1 hi2 hb
          have htm1 : 1 ≤ theoretical_max_num_lines ws sep maxW := by
            rw [heq]
            exact div_ceil_pos ws.length i (by omega) hi1
          obtain ⟨d, hd, _⟩ := scanDims_ub ws dir sep maxW
            (theoretical_max_num_lines ws sep maxW) none
            (theoretical_max_num_lines ws sep maxW) htm1 (le_refl _)
            (fun L' hlo hhi => by
              have : L' = theoretical_max_num_lines ws sep maxW := by omega
              rw [this]
              exact hfit)
          exact ⟨d, hd⟩

theorem width_dimensions_cases (ws : List Nat) (dir : Direction) (sep maxW : Nat)
    (d : Dimensions) (h : width_dimensions ws dir sep maxW = some d) :
    (ws.length = 0 ∧ d = ⟨0, []⟩) ∨
    (ws.length = 1 ∧ d = ⟨1, [ws.getD 0 0]⟩ ∧ listMax ws ≤ maxW) ∨
    (2 ≤ ws.length ∧ theoretical_max_num_lines ws sep maxW = 1 ∧ d = ⟨1, ws⟩ ∧
      listMax ws ≤ maxW) ∨
    (2 ≤ ws.length ∧ 2 ≤ theoretical_max_num_lines ws sep maxW ∧ listMax ws ≤ maxW ∧
      1 ≤ d.num_lines ∧ d.num_lines ≤ theoretical_max_num_lines ws sep maxW ∧
      d = compute_dimensions ws dir d.num_lines (div_ceil ws.length d.num_lines) ∧
      fitsAt ws dir sep maxW d.num_lines ∧
      ∀ L', d.num_lines < L' → L' ≤ theoretical_max_num_lines ws sep maxW →
        fitsAt ws dir sep maxW L' ∨ maxW < sep_total ws.length sep L') := by
  rw [width_dimensions] at h
  by_cases hw : maxW < listMax ws
  · rw [if_pos hw] at h
    cases h
  · rw [if_neg hw] at h
    by_cases h0 : ws.length = 0
    · rw [if_pos h0] at h
      exact Or.inl ⟨h0, (Option.some_injective _ h).symm⟩
    · rw [if_neg h0] at h
      by_cases hone : ws.length = 1
      · rw [if_pos hone] at h
        exact Or.inr (Or.inl ⟨hone, (Option.some_injective _ h).symm, by omega⟩)
      · rw [if_neg hone] at h
        by_cases htm : theoretical_max_num_lines ws sep maxW = 1
        · rw [if_pos htm] at h
          exact Or.inr (Or.inr (Or.inl ⟨by omega, htm,
            (Option.some_injective _ h).symm, by omega⟩))
        · rw [if_neg htm] at h
          have htm2 : 2 ≤ theoretical_max_num_lines ws sep maxW := by
            rcases theoretical_max_spec ws sep maxW (by omega) (by omega)
              with ⟨h1, _⟩ | ⟨i, hi1, hi2, heq, hb⟩
            · exact absurd h1 htm
            · rw [heq]
              exact div_ceil_ge_two ws.length i hi1 hi2
          rcases scanDims_visit ws dir sep maxW _ none d h with h' | ⟨ha, hb, hc, hd, he⟩
          · cases h'
          · exact Or.inr (Or.inr (Or.inr ⟨by omega, htm2, by omega, ha, hb, hc, hd, he⟩))

theorem width_dimensions_fit (ws : List Nat) (dir : Direction) (sep maxW : Nat)
    (d : Dimensions) (h : width_dimensions ws dir sep maxW = some d) :
    d.total_width sep ≤ maxW ∧
      (1 ≤ ws.length → d.widths.length = div_ceil ws.length d.num_lines) := by
  rcases width_dimensions_cases ws dir sep maxW d h with
    ⟨hN, rfl⟩ | ⟨hN, rfl, hwid⟩ | ⟨hN, htm, rfl, hwid⟩ | ⟨hN, htm, hwid, h1, h2, hc, hfit, _⟩
  · constructor
    · simp [Dimensions.total_width]
    · intro hcon
      omega
  · constructor
    · rw [total_width_eq _ _ (by simp)]
      simp only [List.sum_cons, List.sum_nil, List.length_cons, List.length_nil]
      have hmem : ws.getD 0 0 ∈ ws := getD_mem (by omega)
      have := le_listMax_of_mem hmem
      omega
    · intro _
      rw [hN]
      simp [div_ceil_one]
  · constructor
    · rw [total_width_eq _ _ (by show ws.length ≠ 0; omega)]
      rcases theoretical_max_spec ws sep maxW (by omega) hwid with ⟨_, hsum⟩ | ⟨i, hi1, hi2, heq, _⟩
      · have hcomm : sep * (ws.length - 1) = (ws.length - 1) * sep := Nat.mul_comm _ _
        show ws.sum + sep * (ws.length - 1) ≤ maxW
        omega
      · rw [heq] at htm
        have := div_ceil_ge_two ws.length i hi1 hi2
        omega
    · intro _
      simp [div_ceil_one]
  · have hC1 : 1 ≤ div_ceil ws.length d.num_lines :=
      div_ceil_pos ws.length d.num_lines (by omega) h1
    have hlen : d.widths.length = div_ceil ws.length d.num_lines := by
      conv_lhs => rw [hc]
      rw [compute_dimensions_length]
    constructor
    · rw [total_width_eq _ _ (by omega)]
      have hsum : d.widths.sum ≤ maxW - sep_total ws.length sep d.num_lines := by
        conv_lhs => rw [hc]
        exact hfit.2
      have hsep : sep_total ws.length sep d.num_lines ≤ maxW := hfit.1
      have hst : sep_total ws.length sep d.num_lines =
          (div_ceil ws.length d.num_lines - 1) * sep := rfl
      rw [hlen]
      have hcomm : sep * (div_ceil ws.length d.num_lines - 1) =
          (div_ceil ws.length d.num_lines - 1) * sep := Nat.mul_comm _ _
      omega
    · intro _
      exact hlen

/-! ### The renderer's index mapping agrees with the planner's -/

theorem column_index_render_num (dir : Direction) (R C y x : Nat)
    (hy : y < R) (hx : x < C) :
    column_index dir R C (render_num_next dir R C y x).1 = x := by
  cases dir with
  | LeftToRight =>
    show (y * C + x) % C = x
    rw [Nat.mul_comm y C, Nat.mul_add_mod]
    exact Nat.mod_eq_of_lt hx
  | TopToBottom =>
    show (y + R * x) / R = x
    rw [Nat.add_mul_div_left y x (by omega : 0 < R)]
    rw [Nat.div_eq_of_lt hy]
    omega

theorem compute_dimensions_cell_le (ws : List Nat) (dir : Direction) (L C j : Nat)
    (hj : j < ws.length) (hx : column_index dir L C j < C) :
    ws.getD j 0 ≤
      (compute_dimensions ws dir L C).widths.getD (column_index dir L C j) 0 := by
  rw [compute_dimensions_getD ws dir L C _ hx]
  refine le_listMax_of_mem ?_
  have := getD_mem_classVals (f := column_index dir L C)
    (c := column_index dir L C j) ws 0 j hj (by rw [Nat.zero_add])
  exact this

theorem compute_dimensions_col_le_max (ws : List Nat) (dir : Direction)
    (L C x : Nat) (hx : x < C) :
    (compute_dimensions ws dir L C).widths.getD x 0 ≤ listMax ws := by
  rw [compute_dimensions_getD ws dir L C x hx]
  refine listMax_le fun v hv => ?_
  exact le_listMax_of_mem (mem_of_mem_classVals hv)

theorem width_dimensions_col_bounds (ws : List Nat) (dir : Direction)
    (sep maxW : Nat) (d : Dimensions) (h : width_dimensions ws dir sep maxW = some d)
    (y x : Nat) (hy : y < d.num_lines) (hx : x < d.widths.length)
    (hnum : (render_num_next dir d.num_lines d.widths.length y x).1 < ws.length) :
    ws.getD (render_num_next dir d.num_lines d.widths.length y x).1 0 ≤
        d.widths.getD x 0 ∧
      d.widths.getD x 0 ≤ listMax ws := by
  rcases width_dimensions_cases ws dir sep maxW d h with
    ⟨hN, rfl⟩ | ⟨hN, rfl, hwid⟩ | ⟨hN, htm, rfl, hwid⟩ | ⟨hN, htm, hwid, h1, h2, hc, hfit, _⟩
  · simp at hx
  · have hx0 : x = 0 := by simpa using hx
    have hy0 : y = 0 := by simpa using hy
    subst hx0
    subst hy0
    have hnum0 : (render_num_next dir 1 1 0 0).1 = 0 := by
      cases dir <;> simp [render_num_next]
    constructor
    · show ws.getD (render_num_next dir 1 1 0 0).1 0 ≤ [ws.getD 0 0].getD 0 0
      rw [hnum0]
      simp [List.getD]
    · show ([ws.getD 0 0] : List Nat).getD 0 0 ≤ listMax ws
      simp only [List.getD_cons_zero]
      exact le_listMax_of_mem (getD_mem (by omega))
  · have hy0 : y = 0 := by simpa using hy
    subst hy0
    have hnumx : (render_num_next dir 1 ws.length 0 x).1 = x := by
      cases dir <;> simp [render_num_next]
    constructor
    · show ws.getD (render_num_next dir 1 ws.length 0 x).1 0 ≤ ws.getD x 0
      rw [hnumx]
    · exact le_listMax_of_mem (getD_mem (by simpa using hx))
  · have hlenC : d.widths.length = div_ceil ws.length d.num_lines := by
      conv_lhs => rw [hc]
      rw [compute_dimensions_length]
    rw [hlenC] at hx hnum ⊢
    have hcol := column_index_render_num dir d.num_lines
      (div_ceil ws.length d.num_lines) y x hy hx
    constructor
    · conv_rhs => rw [hc]
      have hle := compute_dimensions_cell_le ws dir d.num_lines
        (div_ceil ws.length d.num_lines) _ hnum (by rw [hcol]; exact hx)
      rw [hcol] at hle
      exact hle
    · conv_lhs => rw [hc]
      exact compute_dimensions_col_le_max ws dir d.num_lines
        (div_ceil ws.length d.num_lines) x hx

/-! ### Monotonicity of the planner in the width budget -/

theorem width_dimensions_wid_le (ws : List Nat) (dir : Direction) (sep maxW : Nat)
    (d : Dimensions) (h : width_dimensions ws dir sep maxW = some d) :
    listMax ws ≤ maxW := by
  rw [width_dimensions] at h
  by_cases hw : maxW < listMax ws
  · rw [if_pos hw] at h
    cases h
  · omega

theorem width_dimensions_unfold_scan (ws : List Nat) (dir : Direction)
    (sep maxW : Nat) (hwid : listMax ws ≤ maxW) (hN : 2 ≤ ws.length)
    (htm : 2 ≤ theoretical_max_num_lines ws sep maxW) :
    width_dimensions ws dir sep maxW =
      scanDims ws dir sep maxW (theoretical_max_num_lines ws sep maxW) none := by
  rw [width_dimensions]
  rw [if_neg (by omega : ¬ maxW < listMax ws)]
  rw [if_neg (by omega : ¬ ws.length = 0)]
  rw [if_neg (by omega : ¬ ws.length = 1)]
  rw [if_neg (by omega : ¬ theoretical_max_num_lines ws sep maxW = 1)]

theorem width_dimensions_all_fit (ws : List Nat) (dir : Direction) (sep W : Nat)
    (d : Dimensions) (hN : 2 ≤ ws.length)
    (htm : 2 ≤ theoretical_max_num_lines ws sep W)
    (h1 : 1 ≤ d.num_lines)
    (hfit : fitsAt ws dir sep W d.num_lines)
    (he : ∀ L', d.num_lines < L' → L' ≤ theoretical_max_num_lines ws sep W →
      fitsAt ws dir sep W L' ∨ W < sep_total ws.length sep L') :
    ∀ L', d.num_lines ≤ L' → L' ≤ theoretical_max_num_lines ws sep W →
      fitsAt ws dir sep W L' := by
  intro L' hlo hhi
  by_cases heq : L' = d.num_lines
  · rw [heq]
    exact hfit
  · rcases he L' (by omega) hhi with h | h
    · exact h
    · exfalso
      have hanti : sep_total ws.length sep L' ≤ sep_total ws.length sep d.num_lines :=
        sep_total_anti ws.length sep d.num_lines L' h1 (by omega)
      have := hfit.1
      omega

theorem width_dimensions_mono (ws : List Nat) (dir : Direction) (sep W W' : Nat)
    (d : Dimensions) (hWW : W ≤ W')
    (h : width_dimensions ws dir sep W = some d) :
    ∃ d', width_dimensions ws dir sep W' = some d' ∧ d'.num_lines ≤ d.num_lines := by
  have hwid : listMax ws ≤ W := width_dimensions_wid_le ws dir sep W d h
  have hwid' : listMax ws ≤ W' := by omega
  obtain ⟨d', hd'⟩ := width_dimensions_isSome ws dir sep W' hwid'
  refine ⟨d', hd', ?_⟩
  rcases width_dimensions_cases ws dir sep W d h with
    ⟨hN, rfl⟩ | ⟨hN, rfl, _⟩ | ⟨hN, htm, rfl, _⟩ | ⟨hN, htm, _, h1, h2, hc, hfit, he⟩
  · rcases width_dimensions_cases ws dir sep W' d' hd' with
      ⟨_, rfl⟩ | ⟨hN', _, _⟩ | ⟨hN', _, _, _⟩ | ⟨hN', _⟩
    · exact le_refl _
    · omega
    · omega
    · omega
  · rcases width_dimensions_cases ws dir sep W' d' hd' with
      ⟨hN', _⟩ | ⟨_, rfl, _⟩ | ⟨hN', _, _, _⟩ | ⟨hN', _⟩
    · omega
    · exact le_refl _
    · omega
    · omega
  · have hmono := theoretical_max_mono ws sep W W' hWW (by omega) hwid
    rcases width_dimensions_cases ws dir sep W' d' hd' with
      ⟨hN', _⟩ | ⟨hN', _, _⟩ | ⟨_, _, rfl, _⟩ | ⟨_, htm', _, h1', h2', _, _, _⟩
    · omega
    · omega
    · exact le_refl _
    · omega
  · have hmono := theoretical_max_mono ws sep W W' hWW (by omega) hwid
    have hallfit := width_dimensions_all_fit ws dir sep W d hN htm h1 hfit he
    rcases width_dimensions_cases ws dir sep W' d' hd' with
      ⟨hN', _⟩ | ⟨hN', _, _⟩ | ⟨_, htm', rfl, _⟩ | ⟨_, htm', hwd', h1', h2', _, _, _⟩
    · omega
    · omega
    · show (1 : Nat) ≤ d.num_lines
      omega
    · by_cases hcmp : d.num_lines ≤ theoretical_max_num_lines ws sep W'
      · obtain ⟨d'', hd'', hle⟩ := scanDims_ub ws dir sep W'
          (theoretical_max_num_lines ws sep W') none d.num_lines h1 hcmp
          (fun L' hlo hhi =>
            fitsAt_mono (hallfit L' hlo (by omega)) hWW)
        have hunfold := width_dimensions_unfold_scan ws dir sep W' hwid' hN htm'
        rw [hunfold] at hd'
        rw [hd'] at hd''
        have hdd : d' = d'' := Option.some_injective _ hd''
        rw [hdd]
        exact hle
      · omega

/-! ### The tab-emission loop -/

theorem tabGo_shift (T tgt : Nat) :
    ∀ (fuel cursor t : Nat),
      tabGo T tgt fuel cursor t =
        ((tabGo T tgt fuel cursor 0).1 + t, (tabGo T tgt fuel cursor 0).2) := by
  intro fuel
  induction fuel with
  | zero =>
    intro cursor t
    simp [tabGo]
  | succ fuel ih =>
    intro cursor t
    rw [tabGo, tabGo]
    by_cases h : cursor + 1 < tgt ∧ ¬(cursor / T = tgt / T)
    · rw [if_pos h, if_pos h]
      rw [ih (cursor + (T - cursor % T)) (t + 1), ih (cursor + (T - cursor % T)) 1]
      simp [Prod.ext_iff]
      omega
    · rw [if_neg h, if_neg h]
      simp

theorem tabGo_main (T tgt : Nat) :
    ∀ (fuel cursor : Nat), cursor ≤ tgt → tgt - cursor ≤ fuel →
      cursor ≤ (tabGo T tgt fuel cursor 0).2 ∧
      (tabGo T tgt fuel cursor 0).2 ≤ tgt ∧
      termAdvance T cursor (tabGo T tgt fuel cursor 0).1 = (tabGo T tgt fuel cursor 0).2 ∧
      ¬((tabGo T tgt fuel cursor 0).2 + 1 < tgt ∧
        ¬((tabGo T tgt fuel cursor 0).2 / T = tgt / T)) := by
  intro fuel
  induction fuel with
  | zero =>
    intro cursor hc hf
    show cursor ≤ cursor ∧ cursor ≤ tgt ∧ termAdvance T cursor 0 = cursor ∧
      ¬(cursor + 1 < tgt ∧ ¬(cursor / T = tgt / T))
    refine ⟨le_refl _, hc, rfl, ?_⟩
    rintro ⟨hlt, _⟩
    omega
  | succ fuel ih =>
    intro cursor hc hf
    rw [tabGo]
    by_cases h : cursor + 1 < tgt ∧ ¬(cursor / T = tgt / T)
    · rw [if_pos h]
      have hT : 1 ≤ T := by
        by_contra hT0
        have hT00 : T = 0 := by omega
        rw [hT00] at h
        simp at h
      have hmod : cursor % T < T := Nat.mod_lt _ hT
      have hdm : T * (cursor / T) + cursor % T = cursor := Nat.div_add_mod cursor T
      have hdivlt : cursor / T < tgt / T := by
        have hle : cursor / T ≤ tgt / T := Nat.div_le_div_right (by omega)
        rcases h with ⟨h1, h2⟩
        omega
      have hnext_le : cursor + (T - cursor % T) ≤ tgt := by
        have h1 : cursor / T + 1 ≤ tgt / T := hdivlt
        have h2 : (cursor / T + 1) * T ≤ tgt := (Nat.le_div_iff_mul_le hT).mp h1
        have h3 : (cursor / T + 1) * T = T * (cursor / T) + T := by ring
        omega
      rw [tabGo_shift T tgt fuel (cursor + (T - cursor % T)) 1]
      obtain ⟨ha, hb, hcadv, hd⟩ := ih (cursor + (T - cursor % T)) hnext_le (by omega)
      refine ⟨by omega, hb, ?_, hd⟩
      show termAdvance T cursor ((tabGo T tgt fuel (cursor + (T - cursor % T)) 0).1 + 1) =
        (tabGo T tgt fuel (cursor + (T - cursor % T)) 0).2
      rw [termAdvance]
      exact hcadv
    · rw [if_neg h]
      exact ⟨le_refl _, hc, rfl, h⟩

theorem tabGo_pos_iff (T tgt fuel cursor : Nat) (hfuel : 1 ≤ fuel) :
    0 < (tabGo T tgt fuel cursor 0).1 ↔
      (cursor + 1 < tgt ∧ ¬(cursor / T = tgt / T)) := by
  obtain ⟨f, rfl⟩ : ∃ f, fuel = f + 1 := ⟨fuel - 1, by omega⟩
  rw [tabGo]
  by_cases h : cursor + 1 < tgt ∧ ¬(cursor / T = tgt / T)
  · rw [if_pos h]
    rw [tabGo_shift T tgt f (cursor + (T - cursor % T)) 1]
    simpa using h
  · rw [if_neg h]
    simpa using h

theorem stopIn_iff_div (T a b : Nat) (hT : 1 ≤ T) (hab : a ≤ b) :
    stopIn T a b ↔ a / T < b / T := by
  constructor
  · rintro ⟨m, hmb, ham, hmb2⟩
    have h1 : a / T < m := (Nat.div_lt_iff_lt_mul hT).mpr ham
    have h2 : m ≤ b / T := (Nat.le_div_iff_mul_le hT).mpr hmb2
    omega
  · intro h
    refine ⟨a / T + 1, ?_, ?_, ?_⟩
    · have h2 : (a / T + 1) * T ≤ b := (Nat.le_div_iff_mul_le hT).mp (by omega)
      have h3 : a / T + 1 ≤ (a / T + 1) * T := Nat.le_mul_of_pos_right _ hT
      omega
    · have hdm : T * (a / T) + a % T = a := Nat.div_add_mod a T
      have hmod : a % T < T := Nat.mod_lt _ hT
      have h4 : (a / T + 1) * T = T * (a / T) + T := by ring
      omega
    · exact (Nat.le_div_iff_mul_le hT).mp (by omega)

/-! ### The row emission loop -/

theorem rowGo_succ (g : Grid) (T : Nat) (sepS : String) (y r x cursor : Nat)
    (acc : String) :
    rowGo g T sepS y (r + 1) x cursor acc =
      if g.cells.length ≤ cellNum g y x then acc
      else if x ≠ g.dimensions.widths.length - 1 ∧
          cellNum g y x + cellNext g y x < g.cells.length then
        if T = 0 then
          rowGo g T sepS y r (x + 1) cursor
            (acc ++ g.cells.getD (cellNum g y x) "" ++ spacesStr (padSize g y x) ++ sepS)
        else
          rowGo g T sepS y r (x + 1) (tabTarget g y x cursor)
            (acc ++ g.cells.getD (cellNum g y x) "" ++
              tabsStr (tabGo T (tabTarget g y x cursor) (tabTarget g y x cursor)
                (cursor + g.widths.getD (cellNum g y x) 0) 0).1 ++
              (if (tabGo T (tabTarget g y x cursor) (tabTarget g y x cursor)
                    (cursor + g.widths.getD (cellNum g y x) 0) 0).2 ≠
                  tabTarget g y x cursor then
                spacesStr (tabTarget g y x cursor -
                  (tabGo T (tabTarget g y x cursor) (tabTarget g y x cursor)
                    (cursor + g.widths.getD (cellNum g y x) 0) 0).2)
              else ""))
      else rowGo g T sepS y r (x + 1) cursor (acc ++ g.cells.getD (cellNum g y x) "") :=
  rfl

theorem getD_mem_of_lt {α : Type} {l : List α} {i : Nat} {d : α}
    (h : i < l.length) : l.getD i d ∈ l := by
  induction l generalizing i with
  | nil => simp at h
  | cons y l ih =>
    cases i with
    | zero => simp [List.getD]
    | succ i =>
      simp only [List.length_cons] at h
      exact List.mem_cons_of_mem _ (by simpa [List.getD] using ih (by omega))

theorem noNL_append {a b : String} (ha : noNL a) (hb : noNL b) : noNL (a ++ b) := by
  unfold noNL at ha hb ⊢
  intro h
  rcases List.mem_append.mp h with h | h
  · exact ha h
  · exact hb h

theorem noNL_empty : noNL "" := by
  unfold noNL
  simp

theorem noNL_spacesStr (n : Nat) : noNL (spacesStr n) := by
  unfold noNL spacesStr
  intro h
  have := List.eq_of_mem_replicate h
  cases this

theorem noNL_tabsStr (n : Nat) : noNL (tabsStr n) := by
  unfold noNL tabsStr
  intro h
  have := List.eq_of_mem_replicate h
  cases this

theorem noNL_getD (cells : List String) (h : ∀ s ∈ cells, noNL s) (i : Nat) :
    noNL (cells.getD i "") := by
  by_cases hi : i < cells.length
  · exact h _ (getD_mem_of_lt hi)
  · rw [List.getD_eq_default _ _ (by omega)]
    exact noNL_empty

theorem rowGo_noNL (g : Grid) (T : Nat) (sepS : String) (y : Nat)
    (hcells : ∀ s ∈ g.cells, noNL s) (hsep : noNL sepS) :
    ∀ (r x cursor : Nat) (acc : String), noNL acc →
      noNL (rowGo g T sepS y r x cursor acc) := by
  intro r
  induction r with
  | zero => intro x cursor acc hacc; exact hacc
  | succ r ih =>
    intro x cursor acc hacc
    rw [rowGo_succ]
    by_cases h1 : g.cells.length ≤ cellNum g y x
    · rw [if_pos h1]
      exact hacc
    · rw [if_neg h1]
      by_cases h2 : x ≠ g.dimensions.widths.length - 1 ∧
          cellNum g y x + cellNext g y x < g.cells.length
      · rw [if_pos h2]
        by_cases h3 : T = 0
        · rw [if_pos h3]
          refine ih _ _ _ ?_
          exact noNL_append (noNL_append (noNL_append hacc (noNL_getD _ hcells _))
            (noNL_spacesStr _)) hsep
        · rw [if_neg h3]
          refine ih _ _ _ ?_
          refine noNL_append (noNL_append (noNL_append hacc (noNL_getD _ hcells _))
            (noNL_tabsStr _)) ?_
          split
          · exact noNL_spacesStr _
          · exact noNL_empty
      · rw [if_neg h2]
        exact ih _ _ _ (noNL_append hacc (noNL_getD _ hcells _))

theorem concatRows_count (rows : List String) (h : ∀ r ∈ rows, noNL r) :
    (concatRows rows).data.count '\n' = rows.length := by
  induction rows with
  | nil => rfl
  | cons r rest ih =>
    rw [concatRows]
    have hdata : (r ++ "\n" ++ concatRows rest).data =
        r.data ++ ('\n' :: []) ++ (concatRows rest).data := rfl
    rw [hdata]
    rw [List.count_append, List.count_append]
    have hr : r.data.count '\n' = 0 := by
      rw [List.count_eq_zero]
      exact h r (List.mem_cons_self _ _)
    rw [hr, ih (fun s hs => h s (List.mem_cons_of_mem _ hs))]
    simp [List.length_cons]
    omega

theorem cellNum_mono (g : Grid) (y : Nat) (hR : 1 ≤ g.dimensions.num_lines)
    {x x' : Nat} (h : x ≤ x') : cellNum g y x ≤ cellNum g y x' := by
  cases hdir : g.options.direction with
  | LeftToRight =>
    simp only [cellNum, render_num_next, hdir]
    omega
  | TopToBottom =>
    simp only [cellNum, render_num_next, hdir]
    have := Nat.mul_le_mul_left g.dimensions.num_lines h
    omega

theorem cellNum_next (g : Grid) (y x : Nat) :
    cellNum g y (x + 1) = cellNum g y x + cellNext g y x := by
  cases hdir : g.options.direction with
  | LeftToRight =>
    simp only [cellNum, cellNext, render_num_next, hdir]
    omega
  | TopToBottom =>
    simp only [cellNum, cellNext, render_num_next, hdir]
    have : g.dimensions.num_lines * (x + 1) =
        g.dimensions.num_lines * x + g.dimensions.num_lines := by ring
    omega

theorem rowGo_ends (g : Grid) (T : Nat) (sepS : String) (y xl : Nat)
    (hR : 1 ≤ g.dimensions.num_lines)
    (hxl : xl < g.dimensions.widths.length)
    (hlast : xl + 1 = g.dimensions.widths.length ∨
      g.cells.length ≤ cellNum g y (xl + 1)) :
    ∀ (r x cursor : Nat) (acc : String), x + r = g.dimensions.widths.length →
      x ≤ xl → cellNum g y xl < g.cells.length →
      ∃ pre, rowGo g T sepS y r x cursor acc =
        pre ++ g.cells.getD (cellNum g y xl) "" := by
  intro r
  induction r with
  | zero =>
    intro x cursor acc hxr hxle _
    exfalso
    omega
  | succ r ih =>
    intro x cursor acc hxr hxle hlt
    rw [rowGo_succ]
    have hnum : cellNum g y x < g.cells.length :=
      lt_of_le_of_lt (cellNum_mono g y hR hxle) hlt
    rw [if_neg (by omega)]
    by_cases hx : x = xl
    · subst hx
      have hsepF : ¬(x ≠ g.dimensions.widths.length - 1 ∧
          cellNum g y x + cellNext g y x < g.cells.length) := by
        rcases hlast with hl | hl
        · rintro ⟨hne, _⟩
          omega
        · rintro ⟨_, hlt2⟩
          rw [← cellNum_next] at hlt2
          omega
      rw [if_neg hsepF]
      cases r with
      | zero => exact ⟨acc, rfl⟩
      | succ r' =>
        rw [rowGo_succ]
        have hstop : g.cells.length ≤ cellNum g y (x + 1) := by
          rcases hlast with hl | hl
          · omega
          · exact hl
        rw [if_pos hstop]
        exact ⟨acc, rfl⟩
    · by_cases h2 : x ≠ g.dimensions.widths.length - 1 ∧
          cellNum g y x + cellNext g y x < g.cells.length
      · rw [if_pos h2]
        by_cases h3 : T = 0
        · rw [if_pos h3]
          exact ih (x + 1) _ _ (by omega) (by omega) hlt
        · rw [if_neg h3]
          exact ih (x + 1) _ _ (by omega) (by omega) hlt
      · rw [if_neg h2]
        exact ih (x + 1) _ _ (by omega) (by omega) hlt

/-! ### Grids built by the public constructor -/

theorem grid_new_cells (measure : String → Nat) (cells : List String)
    (options : GridOptions) : (Grid.new measure cells options).cells = cells := rfl

theorem grid_new_widths (measure : String → Nat) (cells : List String)
    (options : GridOptions) :
    (Grid.new measure cells options).widths = cells.map measure := rfl

theorem grid_new_options (measure : String → Nat) (cells : List String)
    (options : GridOptions) : (Grid.new measure cells options).options = options := rfl

theorem grid_new_widest (measure : String → Nat) (cells : List String)
    (options : GridOptions) :
    (Grid.new measure cells options).widest_cell_width =
      listMax (cells.map measure) := rfl

theorem grid_new_dims (measure : String → Nat) (cells : List String)
    (options : GridOptions) :
    (Grid.new measure cells options).dimensions =
      (width_dimensions (cells.map measure) options.direction
          (options.filling.width measure) options.width).getD
        ⟨cells.length, [listMax (cells.map measure)]⟩ := rfl

theorem grid_new_num_lines_pos (measure : String → Nat) (cells : List String)
    (options : GridOptions) (h : cells ≠ []) :
    1 ≤ (Grid.new measure cells options).dimensions.num_lines := by
  rw [grid_new_dims]
  cases hwd : width_dimensions (cells.map measure) options.direction
      (options.filling.width measure) options.width with
  | none =>
    show 1 ≤ cells.length
    exact List.length_pos.mpr h
  | some d =>
    show 1 ≤ d.num_lines
    rcases width_dimensions_cases _ _ _ _ d hwd with
      ⟨hN, rfl⟩ | ⟨hN, rfl, _⟩ | ⟨hN, _, rfl, _⟩ | ⟨hN, _, _, h1, _⟩
    · rw [List.length_map] at hN
      exact absurd (List.length_eq_zero.mp hN) h
    · exact le_refl _
    · exact le_refl _
    · exact h1

theorem grid_new_empty_dims (measure : String → Nat) (options : GridOptions) :
    (Grid.new measure [] options).dimensions = ⟨0, []⟩ := by
  rw [grid_new_dims]
  rw [width_dimensions]
  rw [if_neg (by show ¬ options.width < listMax []; simp [listMax])]
  rw [if_pos (by rfl)]
  rfl

theorem render_of_ne_zero (g : Grid) (h : g.cells.length ≠ 0) :
    g.render = concatRows
      ((List.range g.dimensions.num_lines).map (fun y => renderRowStr g y)) := by
  rw [Grid.render, if_neg h]
  rfl

theorem render_of_zero (g : Grid) (h : g.cells.length = 0) : g.render = "" := by
  rw [Grid.render, if_pos h]

theorem grid_new_col_bounds (measure : String → Nat) (cells : List String)
    (options : GridOptions) (y x : Nat)
    (hy : y < (Grid.new measure cells options).dimensions.num_lines)
    (hx : x < (Grid.new measure cells options).dimensions.widths.length)
    (hnum : cellNum (Grid.new measure cells options) y x < cells.length) :
    (Grid.new measure cells options).widths.getD
        (cellNum (Grid.new measure cells options) y x) 0 ≤
      (Grid.new measure cells options).dimensions.widths.getD x 0 ∧
    (Grid.new measure cells options).dimensions.widths.getD x 0 ≤
      (Grid.new measure cells options).widest_cell_width := by
  cases hwd : width_dimensions (cells.map measure) options.direction
      (options.filling.width measure) options.width with
  | some d =>
    have hdims : (Grid.new measure cells options).dimensions = d := by
      rw [grid_new_dims, hwd]
      rfl
    have hnum2 : cellNum (Grid.new measure cells options) y x =
        (render_num_next options.direction d.num_lines d.widths.length y x).1 := by
      unfold cellNum
      rw [grid_new_options, hdims]
    rw [hdims] at hy hx
    rw [grid_new_widths, grid_new_widest, hdims, hnum2]
    rw [hnum2] at hnum
    exact width_dimensions_col_bounds (cells.map measure) options.direction
      (options.filling.width measure) options.width d hwd y x hy hx
      (by rw [List.length_map]; exact hnum)
  | none =>
    have hdims : (Grid.new measure cells options).dimensions =
        ⟨cells.length, [listMax (cells.map measure)]⟩ := by
      rw [grid_new_dims, hwd]
      rfl
    rw [hdims] at hx
    have hx0 : x = 0 := by simpa using hx
    subst hx0
    rw [grid_new_widths, grid_new_widest, hdims]
    constructor
    · show (cells.map measure).getD _ 0 ≤
        ([listMax (cells.map measure)] : List Nat).getD 0 0
      simp only [List.getD_cons_zero]
      refine le_listMax_of_mem (getD_mem_of_lt ?_)
      rw [List.length_map]
      exact hnum
    · simp [List.getD]

theorem width_dimensions_sep_guard (ws : List Nat) (dir : Direction)
    (sep maxW : Nat) (d : Dimensions)
    (h : width_dimensions ws dir sep maxW = some d) :
    sep_total ws.length sep d.num_lines ≤ maxW := by
  rcases width_dimensions_cases ws dir sep maxW d h with
    ⟨hN, rfl⟩ | ⟨hN, rfl, hwid⟩ | ⟨hN, htm, rfl, hwid⟩ | ⟨hN, htm, hwid, h1, h2, hc, hfit, _⟩
  · show sep_total ws.length sep 0 ≤ maxW
    unfold sep_total
    rw [hN]
    simp [div_ceil]
  · show sep_total ws.length sep 1 ≤ maxW
    unfold sep_total
    rw [hN, div_ceil_one]
    simp
  · show sep_total ws.length sep 1 ≤ maxW
    unfold sep_total
    rw [div_ceil_one]
    rcases theoretical_max_spec ws sep maxW (by omega) hwid with ⟨_, hsum⟩ | ⟨i, hi1, hi2, heq, _⟩
    · omega
    · rw [heq] at htm
      have := div_ceil_ge_two ws.length i hi1 hi2
      omega
  · exact hfit.1

/-! ### The claims -/

/-- Claim C1 (code bug): for cells `["a","b","ccc","ddd"]` laid out
top-to-bottom with a 2-space separator in width 6, the planner is claimed
(and the crate's own test `use_minimal_optimal_lines` expects) to return
the 2-row plan rendered as `"a  ccc\nb  ddd\n"`; the 2-row packing does
fit exactly (columns 1 and 3, total `1 + 2 + 3 = 6 ≤ 6`), yet the scan
breaks early at the infeasible 3-line candidate and the code returns the
4-row single-column plan, rendering `"a\nb\nccc\nddd\n"`. -/
theorem claim_C1 :
    width_dimensions [1, 1, 3, 3] Direction.TopToBottom 2 6 =
      some ⟨4, [3]⟩ ∧
    compute_dimensions [1, 1, 3, 3] Direction.TopToBottom 2 2 = ⟨2, [1, 3]⟩ ∧
    (compute_dimensions [1, 1, 3, 3] Direction.TopToBottom 2 2).total_width 2 ≤ 6 ∧
    div_ceil 4 2 = 2 ∧
    (2 : Nat) < 4 ∧
    (Grid.new (fun s => s.length) ["a", "b", "ccc", "ddd"]
        ⟨Direction.TopToBottom, Filling.Spaces 2, 6⟩).render = "a\nb\nccc\nddd\n" := by
  refine ⟨by decide, by decide, by decide, by decide, by decide, rfl⟩

/-- Claim C2: every plan the planner returns satisfies the fit invariant
`sum(column widths) + separator_width * (columns - 1) ≤ maximum_width`
exactly, and when there is at least one cell the number of columns equals
`ceil(N / rows)`. -/
theorem claim_C2 (ws : List Nat) (dir : Direction) (sep maxW : Nat)
    (d : Dimensions) (h : width_dimensions ws dir sep maxW = some d) :
    d.total_width sep ≤ maxW ∧
      (0 < ws.length → d.widths.length = div_ceil ws.length d.num_lines) := by
  obtain ⟨h1, h2⟩ := width_dimensions_fit ws dir sep maxW d h
  exact ⟨h1, fun h0 => h2 h0⟩

/-- Claim C2, witness. -/
theorem claim_C2_w :
    width_dimensions [1, 1] Direction.LeftToRight 2 40 = some ⟨1, [1, 1]⟩ ∧
    ((⟨1, [1, 1]⟩ : Dimensions).total_width 2 ≤ 40 ∧
      (0 < ([1, 1] : List Nat).length →
        ([1, 1] : List Nat).length = div_ceil ([1, 1] : List Nat).length 1)) :=
  ⟨by decide, claim_C2 [1, 1] Direction.LeftToRight 2 40 ⟨1, [1, 1]⟩ (by decide)⟩

/-- Claim C3: the planner returns no plan exactly when the widest cell is
wider than the maximum width; the empty cell list yields the empty plan
and a single cell that fits yields the one-row-one-column plan. -/
theorem claim_C3 (ws : List Nat) (dir : Direction) (sep maxW : Nat) :
    (width_dimensions ws dir sep maxW = none ↔ maxW < listMax ws) ∧
    width_dimensions [] dir sep maxW = some ⟨0, []⟩ ∧
    (∀ w, w ≤ maxW → width_dimensions [w] dir sep maxW = some ⟨1, [w]⟩) := by
  refine ⟨⟨?_, ?_⟩, ?_, ?_⟩
  · intro hnone
    by_contra hc
    obtain ⟨d, hd⟩ := width_dimensions_isSome ws dir sep maxW (by omega)
    rw [hnone] at hd
    cases hd
  · intro hlt
    rw [width_dimensions, if_pos hlt]
  · rw [width_dimensions]
    rw [if_neg (by show ¬ maxW < listMax []; simp [listMax])]
    rw [if_pos (by rfl)]
  · intro w hw
    rw [width_dimensions]
    rw [if_neg (by show ¬ maxW < listMax [w]; simp [listMax]; omega)]
    rw [if_neg (by simp)]
    rw [if_pos (by simp)]
    rfl

/-- Claim C3, witness. -/
theorem claim_C3_w :
    (5 : Nat) ≤ 40 ∧
    width_dimensions [5] Direction.LeftToRight 2 40 = some ⟨1, [5]⟩ :=
  ⟨by decide, (claim_C3 [5] Direction.LeftToRight 2 40).2.2 5 (by decide)⟩

/-- Claim C4: for a plan of `R` rows and `C` columns, the renderer's cell
index for row `y`, column `x` is mapped by the planner's `column_index`
back to `x` (index mod C for LeftToRight, index div R for TopToBottom),
so every rendered cell's width is bounded by the width the planner
computed for its column. -/
theorem claim_C4 (ws : List Nat) (dir : Direction) (R C y x : Nat)
    (hy : y < R) (hx : x < C)
    (hnum : (render_num_next dir R C y x).1 < ws.length) :
    column_index dir R C (render_num_next dir R C y x).1 = x ∧
    ws.getD (render_num_next dir R C y x).1 0 ≤
      (compute_dimensions ws dir R C).widths.getD x 0 := by
  have hcol := column_index_render_num dir R C y x hy hx
  refine ⟨hcol, ?_⟩
  have hle := compute_dimensions_cell_le ws dir R C _ hnum (by rw [hcol]; exact hx)
  rw [hcol] at hle
  exact hle

/-- Claim C4, witness. -/
theorem claim_C4_w :
    (1 : Nat) < 2 ∧ (1 : Nat) < 2 ∧
    (render_num_next Direction.TopToBottom 2 2 1 1).1 < ([1, 1, 3, 3] : List Nat).length ∧
    (column_index Direction.TopToBottom 2 2
        (render_num_next Direction.TopToBottom 2 2 1 1).1 = 1 ∧
      ([1, 1, 3, 3] : List Nat).getD (render_num_next Direction.TopToBottom 2 2 1 1).1 0 ≤
        (compute_dimensions [1, 1, 3, 3] Direction.TopToBottom 2 2).widths.getD 1 0) :=
  ⟨by decide, by decide, by decide,
    claim_C4 [1, 1, 3, 3] Direction.TopToBottom 2 2 1 1 (by decide) (by decide) (by decide)⟩

/-- Claim C5, counterexample: the tab filling `Tabs 4` configures a tab
size of 4, but its planning width is the constant
`DEFAULT_SEPARATOR_SIZE = 2`, not the configured number 4 — the source's
tab variant has no per-filling spaces count at all. -/
theorem claim_C5_cx :
    Filling.width (Filling.Tabs 4) String.length = 2 ∧
    ¬ Filling.width (Filling.Tabs 4) String.length = 4 := by
  exact ⟨rfl, by decide⟩

/-- Claim C5 (amended): for every tab filling the planner's separator
width is the fixed constant `DEFAULT_SEPARATOR_SIZE`, which is exactly
the number of literal spaces the renderer's tab mode uses as its
separator target; the `Tabs` parameter is the tab size and does not
enter the planning width. -/
theorem claim_C5 (n : Nat) (measure : String → Nat) :
    Filling.width (Filling.Tabs n) measure = DEFAULT_SEPARATOR_SIZE ∧
    filling_tab_and_separator (Filling.Tabs n) =
      (n, spacesStr DEFAULT_SEPARATOR_SIZE) :=
  ⟨rfl, rfl⟩

/-- Claim C6, counterexample: rendering `["a","b"]` left-to-right with
`Tabs 1` in width 40 emits `"a\t b\n"` — after the single tab the cursor
is at column 2, the target is column 3, and column 3 is a tab stop
(tab size 1), yet the code emits a literal space: the claimed rule
"a tab is used exactly when a stop lies in `(cursor, target]`" fails. -/
theorem claim_C6_cx :
    (Grid.new (fun s => s.length) ["a", "b"]
        ⟨Direction.LeftToRight, Filling.Tabs 1, 40⟩).render = "a\t b\n" ∧
    ¬ tabSpacesClaim 1 1 3 := by
  exact ⟨rfl, by decide⟩

/-- Claim C6 (amended): in tab-stop mode, at a column boundary starting
from cursor `c` with `pad` columns of padding, the emitted tabs and
spaces advance the terminal cursor (tab stops at every multiple of
`tab_size` from column 0) by exactly `pad + DEFAULT_SEPARATOR_SIZE`
columns; at least one tab is used iff a tab stop lies strictly after `c`
and at or before the target; and each literal space is emitted either
with no tab stop remaining in its range or as the single final column
before the target (the latter arises only for tab size 1). -/
theorem claim_C6 (T c pad : Nat) (hT : 1 ≤ T) : tabAdvanceSpec T c pad := by
  have hDS : DEFAULT_SEPARATOR_SIZE = 2 := rfl
  obtain ⟨ha, hb, hadv, hexit⟩ := tabGo_main T (c + pad + DEFAULT_SEPARATOR_SIZE)
    (c + pad + DEFAULT_SEPARATOR_SIZE) c (by omega) (by omega)
  refine ⟨⟨ha, hb, hadv, by omega⟩, ⟨?_, ?_⟩, ?_⟩
  · intro hpos
    have hcond := (tabGo_pos_iff T (c + pad + DEFAULT_SEPARATOR_SIZE)
      (c + pad + DEFAULT_SEPARATOR_SIZE) c (by omega)).mp hpos
    rw [stopIn_iff_div T c _ hT (by omega)]
    have hle : c / T ≤ (c + pad + DEFAULT_SEPARATOR_SIZE) / T :=
      Nat.div_le_div_right (by omega)
    exact lt_of_le_of_ne hle hcond.2
  · intro hstop
    have hdiv := (stopIn_iff_div T c _ hT (by omega)).mp hstop
    exact (tabGo_pos_iff T (c + pad + DEFAULT_SEPARATOR_SIZE)
      (c + pad + DEFAULT_SEPARATOR_SIZE) c (by omega)).mpr
      ⟨by omega, Nat.ne_of_lt hdiv⟩
  · intro cp hcp1 hcp2
    by_cases hdiv : (tabGo T (c + pad + DEFAULT_SEPARATOR_SIZE)
        (c + pad + DEFAULT_SEPARATOR_SIZE) c 0).2 / T =
        (c + pad + DEFAULT_SEPARATOR_SIZE) / T
    · left
      intro hstop
      have h1 := (stopIn_iff_div T cp (c + pad + DEFAULT_SEPARATOR_SIZE) hT
        (by omega)).mp hstop
      have h2 : (tabGo T (c + pad + DEFAULT_SEPARATOR_SIZE)
          (c + pad + DEFAULT_SEPARATOR_SIZE) c 0).2 / T ≤ cp / T :=
        Nat.div_le_div_right hcp1
      rw [hdiv] at h2
      exact absurd h1 (not_lt.mpr h2)
    · right
      have hge : ¬((tabGo T (c + pad + DEFAULT_SEPARATOR_SIZE)
          (c + pad + DEFAULT_SEPARATOR_SIZE) c 0).2 + 1 <
          c + pad + DEFAULT_SEPARATOR_SIZE) :=
        fun hlt => hexit ⟨hlt, hdiv⟩
      omega

/-- Claim C6, witness. -/
theorem claim_C6_w : (1 : Nat) ≤ 8 ∧ tabAdvanceSpec 8 0 1 :=
  ⟨by decide, claim_C6 8 0 1 (by decide)⟩

/-- Claim C7: for every grid built by the public constructor whose cells
and separator text contain no line terminator, the rendered text contains
exactly `row_count` line terminators (one closing each row, and nothing at
all — not even a terminator — for the empty cell list); each nonempty
row's emission ends with its last real cell, with no separator or padding
after it; and rendering is a pure function, so rendering twice yields
identical text. -/
theorem claim_C7 (measure : String → Nat) (cells : List String)
    (options : GridOptions)
    (hcells : ∀ s ∈ cells, noNL s)
    (hsep : noNL (filling_tab_and_separator options.filling).2) :
    ((Grid.new measure cells options).cells.length = 0 →
      (Grid.new measure cells options).render = "") ∧
    (Grid.new measure cells options).render.data.count '\n' =
      (Grid.new measure cells options).dimensions.num_lines ∧
    rowEndsWithLastCell (Grid.new measure cells options) ∧
    (Grid.new measure cells options).render = (Grid.new measure cells options).render := by
  refine ⟨fun h0 => render_of_zero _ h0, ?_, ?_, rfl⟩
  · by_cases hc : cells.length = 0
    · have hnil : cells = [] := List.length_eq_zero.mp hc
      subst hnil
      rw [render_of_zero _ (by rw [grid_new_cells]; rfl)]
      rw [grid_new_empty_dims]
      rfl
    · rw [render_of_ne_zero _ (by rwa [grid_new_cells])]
      rw [concatRows_count]
      · rw [List.length_map, List.length_range]
      · intro rs hrs
        obtain ⟨y, _, rfl⟩ := List.mem_map.mp hrs
        unfold renderRowStr
        refine rowGo_noNL _ _ _ _ ?_ ?_ _ _ _ _ noNL_empty
        · rw [grid_new_cells]
          exact hcells
        · rw [grid_new_options]
          exact hsep
  · intro y x hy hx hnum hlast
    exact rowGo_ends (Grid.new measure cells options)
      (filling_tab_and_separator (Grid.new measure cells options).options.filling).1
      (filling_tab_and_separator (Grid.new measure cells options).options.filling).2
      y x (by omega) hx hlast
      (Grid.new measure cells options).dimensions.widths.length 0 0 ""
      (by omega) (Nat.zero_le x) hnum

/-- Claim C7, witness. -/
theorem claim_C7_w :
    (∀ s ∈ (["a", "bb"] : List String), noNL s) ∧
    noNL (filling_tab_and_separator (Filling.Spaces 2)).2 ∧
    (((Grid.new (fun s => s.length) ["a", "bb"]
        ⟨Direction.LeftToRight, Filling.Spaces 2, 40⟩).cells.length = 0 →
      (Grid.new (fun s => s.length) ["a", "bb"]
        ⟨Direction.LeftToRight, Filling.Spaces 2, 40⟩).render = "") ∧
    (Grid.new (fun s => s.length) ["a", "bb"]
        ⟨Direction.LeftToRight, Filling.Spaces 2, 40⟩).render.data.count '\n' =
      (Grid.new (fun s => s.length) ["a", "bb"]
        ⟨Direction.LeftToRight, Filling.Spaces 2, 40⟩).dimensions.num_lines ∧
    rowEndsWithLastCell (Grid.new (fun s => s.length) ["a", "bb"]
        ⟨Direction.LeftToRight, Filling.Spaces 2, 40⟩) ∧
    (Grid.new (fun s => s.length) ["a", "bb"]
        ⟨Direction.LeftToRight, Filling.Spaces 2, 40⟩).render =
      (Grid.new (fun s => s.length) ["a", "bb"]
        ⟨Direction.LeftToRight, Filling.Spaces 2, 40⟩).render) :=
  ⟨by decide, by decide,
    claim_C7 (fun s => s.length) ["a", "bb"]
      ⟨Direction.LeftToRight, Filling.Spaces 2, 40⟩ (by decide) (by decide)⟩

/-- Claim C8: for fixed cells, direction and separator width, if the
planner returns a plan at width `W` it also returns a plan at any width
`W' ≥ W`, with a row count that is at most the row count at `W`. -/
theorem claim_C8 (ws : List Nat) (dir : Direction) (sep W W' : Nat)
    (d : Dimensions) (hWW : W ≤ W')
    (h : width_dimensions ws dir sep W = some d) :
    ∃ d', width_dimensions ws dir sep W' = some d' ∧
      d'.num_lines ≤ d.num_lines :=
  width_dimensions_mono ws dir sep W W' d hWW h

/-- Claim C8, witness. -/
theorem claim_C8_w :
    (6 : Nat) ≤ 40 ∧
    width_dimensions [1, 1, 3, 3] Direction.TopToBottom 2 6 = some ⟨4, [3]⟩ ∧
    (∃ d', width_dimensions [1, 1, 3, 3] Direction.TopToBottom 2 40 = some d' ∧
      d'.num_lines ≤ (⟨4, [3]⟩ : Dimensions).num_lines) :=
  ⟨by decide, by decide,
    claim_C8 [1, 1, 3, 3] Direction.TopToBottom 2 6 40 ⟨4, [3]⟩ (by decide) (by decide)⟩

/-- Claim C9: no arithmetic underflow — for every grid from the public
constructor and every rendered cell position, the cell's width is at most
its column's width (so the padding `column_width − cell_width` cannot
underflow), the column width is at most the widest cell width (so padding
slices stay inside the space buffer of length
`widest + filling.width`), and for every plan the planner returns the
separator total that is subtracted from the budget is at most the budget
(the subtraction is guarded). -/
theorem claim_C9 (measure : String → Nat) (cells : List String)
    (options : GridOptions) (y x : Nat)
    (hy : y < (Grid.new measure cells options).dimensions.num_lines)
    (hx : x < (Grid.new measure cells options).dimensions.widths.length)
    (hnum : cellNum (Grid.new measure cells options) y x < cells.length) :
    (Grid.new measure cells options).widths.getD
        (cellNum (Grid.new measure cells options) y x) 0 ≤
      (Grid.new measure cells options).dimensions.widths.getD x 0 ∧
    (Grid.new measure cells options).dimensions.widths.getD x 0 ≤
      (Grid.new measure cells options).widest_cell_width ∧
    (∀ (ws : List Nat) (dir : Direction) (sep W : Nat) (d : Dimensions),
      width_dimensions ws dir sep W = some d →
      sep_total ws.length sep d.num_lines ≤ W) := by
  obtain ⟨h1, h2⟩ := grid_new_col_bounds measure cells options y x hy hx hnum
  exact ⟨h1, h2, fun ws dir sep W d h => width_dimensions_sep_guard ws dir sep W d h⟩

/-- Claim C9, witness. -/
theorem claim_C9_w :
    (0 : Nat) < (Grid.new (fun s => s.length) ["a", "ccc"]
        ⟨Direction.TopToBottom, Filling.Spaces 2, 6⟩).dimensions.num_lines ∧
    (1 : Nat) < (Grid.new (fun s => s.length) ["a", "ccc"]
        ⟨Direction.TopToBottom, Filling.Spaces 2, 6⟩).dimensions.widths.length ∧
    cellNum (Grid.new (fun s => s.length) ["a", "ccc"]
        ⟨Direction.TopToBottom, Filling.Spaces 2, 6⟩) 0 1 < (["a", "ccc"] : List String).length ∧
    ((Grid.new (fun s => s.length) ["a", "ccc"]
        ⟨Direction.TopToBottom, Filling.Spaces 2, 6⟩).widths.getD
        (cellNum (Grid.new (fun s => s.length) ["a", "ccc"]
          ⟨Direction.TopToBottom, Filling.Spaces 2, 6⟩) 0 1) 0 ≤
      (Grid.new (fun s => s.length) ["a", "ccc"]
        ⟨Direction.TopToBottom, Filling.Spaces 2, 6⟩).dimensions.widths.getD 1 0 ∧
    (Grid.new (fun s => s.length) ["a", "ccc"]
        ⟨Direction.TopToBottom, Filling.Spaces 2, 6⟩).dimensions.widths.getD 1 0 ≤
      (Grid.new (fun s => s.length) ["a", "ccc"]
        ⟨Direction.TopToBottom, Filling.Spaces 2, 6⟩).widest_cell_width ∧
    (∀ (ws : List Nat) (dir : Direction) (sep W : Nat) (d : Dimensions),
      width_dimensions ws dir sep W = some d →
      sep_total ws.length sep d.num_lines ≤ W)) :=
  ⟨by decide, by decide, by decide,
    claim_C9 (fun s => s.length) ["a", "ccc"]
      ⟨Direction.TopToBottom, Filling.Spaces 2, 6⟩ 0 1 (by decide) (by decide) (by decide)⟩

/-- Claim C10: the public constructor is total — it always produces a
grid — and when the widest cell exceeds the configured width (the
infeasible case for the planner) it silently falls back to a
single-column layout whose row count is the number of cells and whose
only column is as wide as the widest cell; the grid's dimensions are
always the planner's answer with exactly that fallback, so infeasibility
is not observable through the public API. -/
theorem claim_C10 (measure : String → Nat) (cells : List String)
    (options : GridOptions) :
    (options.width < listMax (cells.map measure) →
      (Grid.new measure cells options).dimensions =
        ⟨cells.length, [listMax (cells.map measure)]⟩) ∧
    (Grid.new measure cells options).dimensions =
      (width_dimensions (cells.map measure) options.direction
          (options.filling.width measure) options.width).getD
        ⟨cells.length, [listMax (cells.map measure)]⟩ ∧
    (Grid.new measure cells options).cells = cells ∧
    (Grid.new measure cells options).widest_cell_width =
      listMax (cells.map measure) := by
  refine ⟨?_, rfl, rfl, rfl⟩
  intro hlt
  rw [grid_new_dims]
  rw [width_dimensions, if_pos hlt]
  rfl

/-- Claim C10, witness. -/
theorem claim_C10_w :
    (⟨Direction.LeftToRight, Filling.Spaces 2, 3⟩ : GridOptions).width <
      listMax ((["hello", "hi"] : List String).map (fun s => s.length)) ∧
    (Grid.new (fun s => s.length) ["hello", "hi"]
        ⟨Direction.LeftToRight, Filling.Spaces 2, 3⟩).dimensions =
      ⟨2, [5]⟩ :=
  ⟨by decide,
    (claim_C10 (fun s => s.length) ["hello", "hi"]
      ⟨Direction.LeftToRight, Filling.Spaces 2, 3⟩).1 (by decide)⟩
